import Mathlib

/-
  Verification development for the casys graph-database core
  (crates casys_core, casys_engine, casys_storage_fs).

  Shallow embedding conventions:
  * `u64` quantities are modelled as `Nat`; where the source can overflow
    (the id counters `next_node_id`/`next_edge_id`, updated with `+= 1`
    respectively `id + 1`), the release-mode wrapping semantics is made
    explicit with `% U64`.
  * Rust `HashMap` values are modelled as association lists in the map's
    iteration order.  Because `std::collections::HashMap` iteration order is
    unspecified (seed- and layout-dependent), every insertion of a fresh key
    takes an extra `pos : Nat` argument giving the (unspecified) position at
    which the new entry appears in the iteration order.  Maps that the source
    only ever reads point-wise (`label_index`, the two adjacency maps,
    executor tuples) are modelled as functions, which is faithful because
    their iteration order is never observed.
  * `f64` payloads are modelled as rationals (`ℚ`); no claim verified here
    depends on IEEE-754 rounding, only on which `Value` variant is produced.
  * Fallible Rust functions returning `Result<T, EngineError>` are modelled
    as `Except EngineError T`; functions whose source never constructs an
    error are modelled as total where this keeps statements readable, with a
    comment at the definition.
  * File contents are modelled as `List Nat` (byte values).
-/

namespace Casys

/-- 2^64, the modulus of `u64` arithmetic. -/
def U64 : Nat := 18446744073709551616

/-- Error taxonomy of `casys_core::EngineError`.  Message strings carried by
the Rust variants are kept but the formatting of dynamic parts is abbreviated;
per the source, error equality is by variant, not by text. -/
inductive EngineError where
  | storageErr (msg : String)
  | invalidArgument (msg : String)
  | notFound (msg : String)
  | concurrency (msg : String)
  | notImplemented (msg : String)

/-- True exactly on the `StorageIo` variant. -/
def EngineError.isStorageErr : EngineError → Bool
  | .storageErr _ => true
  | _ => false

/-- `casys_core::Value`.  `float` carries a rational (see header comment);
`map` is a `BTreeMap` in the source, modelled as its sorted entry list. -/
inductive Value where
  | null
  | bool (b : Bool)
  | int (i : Int)
  | float (q : ℚ)
  | string (s : String)
  | bytes (bs : List Nat)
  | array (vs : List Value)
  | map (entries : List (String × Value))
  | nodeId (id : Nat)

/-- `casys_core::Node`.  `properties` is a `HashMap` in the source; it is
only ever iterated to copy entries into a tuple keyed by `var.prop`, so the
list order is unobservable and carried as-is. -/
structure Node where
  id : Nat
  labels : List String
  properties : List (String × Value)

/-- `casys_core::Edge`. -/
structure Edge where
  id : Nat
  fromNode : Nat
  toNode : Nat
  edgeType : String
  properties : List (String × Value)

/-- `InMemoryGraphStore` (casys_engine::index).  `nodes`/`edges` are the two
`HashMap`s in iteration order (key = the element's `id` field, as everywhere
in the source); `labelIndex`, `adjacencyOut`, `adjacencyIn` are point-read
maps modelled as functions defaulting to `[]`. -/
structure Store where
  nodes : List Node
  edges : List Edge
  labelIndex : String → List Nat
  adjacencyOut : Nat → List Nat
  adjacencyIn : Nat → List Nat
  nextNodeId : Nat
  nextEdgeId : Nat

/-- `InMemoryGraphStore::new()`. -/
def emptyStore : Store :=
  { nodes := [], edges := [], labelIndex := fun _ => [],
    adjacencyOut := fun _ => [], adjacencyIn := fun _ => [],
    nextNodeId := 1, nextEdgeId := 1 }

/-- Insert `a` at position `pos` (clamped to the end), the unspecified spot
where a `HashMap` insertion of a fresh key surfaces in iteration order. -/
def insertAt (l : List α) (pos : Nat) (a : α) : List α :=
  l.take pos ++ a :: l.drop pos

/-- `HashMap::insert` on a map in iteration order: an existing key is
overwritten in place, a fresh key appears at the unspecified position
`pos`. -/
def mapInsertBy (key : α → Nat) (l : List α) (a : α) (pos : Nat) : List α :=
  if l.any (fun x => key x == key a) then
    l.map (fun x => if key x == key a then a else x)
  else insertAt l pos a

/-- Point update of a function-modelled map: push `v` onto the list at `k`
(`entry(k).or_insert_with(Vec::new).push(v)`). -/
def pushAt (f : Nat → List Nat) (k v : Nat) : Nat → List Nat :=
  fun k' => if k' = k then f k ++ [v] else f k'

/-- Same for a string-keyed map (the label index). -/
def pushAtStr (f : String → List Nat) (k : String) (v : Nat) : String → List Nat :=
  fun k' => if k' = k then f k ++ [v] else f k'

/-- `HashMap::get` on the nodes map. -/
def findNode (s : Store) (i : Nat) : Option Node :=
  s.nodes.find? (fun n => n.id == i)

/-- `HashMap::get` on the edges map. -/
def findEdge (s : Store) (i : Nat) : Option Edge :=
  s.edges.find? (fun e => e.id == i)

/-- `GraphWriteStore::add_node` for `InMemoryGraphStore`: take the next id,
bump the counter (wrapping `u64` add), insert the node, push the id onto the
label index entry of every label.  Always returns `Ok`. -/
def addNode (s : Store) (labels : List String) (props : List (String × Value))
    (pos : Nat) : Except EngineError (Nat × Store) :=
  let id := s.nextNodeId
  let node : Node := { id := id, labels := labels, properties := props }
  .ok (id,
    { s with
      nodes := mapInsertBy Node.id s.nodes node pos,
      labelIndex := labels.foldl (fun f l => pushAtStr f l id) s.labelIndex,
      nextNodeId := (id + 1) % U64 })

/-- `GraphWriteStore::add_edge` for `InMemoryGraphStore`: take the next id,
bump the counter, insert the edge, append the id to the outgoing adjacency of
`from` and the incoming adjacency of `to`.  The source performs no check that
either endpoint exists and always returns `Ok`. -/
def addEdge (s : Store) (f t : Nat) (ty : String)
    (props : List (String × Value)) (pos : Nat) :
    Except EngineError (Nat × Store) :=
  let id := s.nextEdgeId
  let edge : Edge :=
    { id := id, fromNode := f, toNode := t, edgeType := ty, properties := props }
  .ok (id,
    { s with
      edges := mapInsertBy Edge.id s.edges edge pos,
      adjacencyOut := pushAt s.adjacencyOut f id,
      adjacencyIn := pushAt s.adjacencyIn t id,
      nextEdgeId := (id + 1) % U64 })

/-- `GraphReadStore::scan_all`: `self.nodes.values().cloned().collect()` —
the nodes map's values in its iteration order.  (The Rust signature returns
`Result` but never errs.) -/
def scanAll (s : Store) : List Node :=
  s.nodes

/-- `GraphReadStore::get_neighbors`: walk the outgoing adjacency list,
resolve each edge id, drop edges whose type differs from the requested exact
type, resolve the target node; missing edges or nodes are skipped.  (The Rust
signature returns `Result` but never errs.) -/
def getNeighbors (s : Store) (nid : Nat) (ty : Option String) :
    List (Edge × Node) :=
  (s.adjacencyOut nid).filterMap (fun eid =>
    match findEdge s eid with
    | none => none
    | some e =>
      match ty with
      | some t => if e.edgeType ≠ t then none else
          match findNode s e.toNode with
          | some n => some (e, n)
          | none => none
      | none =>
          match findNode s e.toNode with
          | some n => some (e, n)
          | none => none)

/-- `GraphReadStore::get_neighbors_incoming`: symmetric over the incoming
adjacency, resolving the source node. -/
def getNeighborsIncoming (s : Store) (nid : Nat) (ty : Option String) :
    List (Edge × Node) :=
  (s.adjacencyIn nid).filterMap (fun eid =>
    match findEdge s eid with
    | none => none
    | some e =>
      match ty with
      | some t => if e.edgeType ≠ t then none else
          match findNode s e.fromNode with
          | some n => some (e, n)
          | none => none
      | none =>
          match findNode s e.fromNode with
          | some n => some (e, n)
          | none => none)

/-- One decoded entry of the `nodes` segment JSON, after the field
extraction of `deserialize_nodes` (`id` via `as_u64().unwrap_or(0)` etc.);
the trailing `Nat` is the unspecified iteration-order position of the
`HashMap` insertion. -/
structure NodeEntry where
  id : Nat
  labels : List String
  properties : List (String × Value)
  pos : Nat

/-- One decoded entry of the `edges` segment JSON. -/
structure EdgeEntry where
  id : Nat
  fromNode : Nat
  toNode : Nat
  edgeType : String
  properties : List (String × Value)
  pos : Nat

/-- `InMemoryGraphStore::deserialize_nodes`, one entry: insert the node,
rebuild the label index, and set `next_node_id = id + 1` (wrapping `u64` add)
whenever `id >= next_node_id`. -/
def desNodeStep (s : Store) (e : NodeEntry) : Store :=
  let node : Node := { id := e.id, labels := e.labels, properties := e.properties }
  { s with
    nodes := mapInsertBy Node.id s.nodes node e.pos,
    labelIndex := e.labels.foldl (fun f l => pushAtStr f l e.id) s.labelIndex,
    nextNodeId := if e.id ≥ s.nextNodeId then (e.id + 1) % U64 else s.nextNodeId }

/-- `InMemoryGraphStore::deserialize_nodes` over the decoded array. -/
def deserializeNodes (s : Store) (entries : List NodeEntry) : Store :=
  entries.foldl desNodeStep s

/-- `InMemoryGraphStore::deserialize_edges`, one entry: insert the edge,
rebuild both adjacency lists, and bump `next_edge_id` the same way. -/
def desEdgeStep (s : Store) (e : EdgeEntry) : Store :=
  let edge : Edge :=
    { id := e.id, fromNode := e.fromNode, toNode := e.toNode,
      edgeType := e.edgeType, properties := e.properties }
  { s with
    edges := mapInsertBy Edge.id s.edges edge e.pos,
    adjacencyOut := pushAt s.adjacencyOut e.fromNode e.id,
    adjacencyIn := pushAt s.adjacencyIn e.toNode e.id,
    nextEdgeId := if e.id ≥ s.nextEdgeId then (e.id + 1) % U64 else s.nextEdgeId }

/-- `InMemoryGraphStore::deserialize_edges` over the decoded array. -/
def deserializeEdges (s : Store) (entries : List EdgeEntry) : Store :=
  entries.foldl desEdgeStep s

/-- A decoded `WalRecord` (casys_engine::index::persistence). -/
inductive WalRecord where
  | addNodeRec (e : NodeEntry)
  | addEdgeRec (e : EdgeEntry)

/-- `InMemoryGraphStore::replay_wal`: apply each record; the per-record
updates are identical to the deserialize steps. -/
def replayWal (s : Store) (records : List WalRecord) : Store :=
  records.foldl
    (fun s r =>
      match r with
      | .addNodeRec e => desNodeStep s e
      | .addEdgeRec e => desEdgeStep s e)
    s

/-- The store invariant claimed by the spec: both id counters are strictly
greater than every id present in the respective table. -/
def CounterInv (s : Store) : Prop :=
  (∀ n ∈ s.nodes, n.id < s.nextNodeId) ∧ (∀ e ∈ s.edges, e.id < s.nextEdgeId)

/-- The store invariant claimed by the spec: every stored edge has both of
its endpoints present in the node table. -/
def EndpointInv (s : Store) : Prop :=
  ∀ e ∈ s.edges, (∃ n ∈ s.nodes, n.id = e.fromNode) ∧
    (∃ n ∈ s.nodes, n.id = e.toNode)

lemma mem_insertAt (l : List α) (pos : Nat) (a : α) : a ∈ insertAt l pos a := by
  simp [insertAt]

lemma insertAt_perm (l : List α) (pos : Nat) (a : α) :
    (insertAt l pos a).Perm (l ++ [a]) := by
  have h1 : (insertAt l pos a).Perm (a :: (l.take pos ++ l.drop pos)) := by
    simpa [insertAt] using (@List.perm_middle _ a (l.take pos) (l.drop pos))
  have h2 : l.take pos ++ l.drop pos = l := List.take_append_drop pos l
  rw [h2] at h1
  exact h1.trans (List.perm_append_singleton a l).symm

lemma self_mem_mapInsertBy (key : α → Nat) (l : List α) (a : α) (pos : Nat) :
    a ∈ mapInsertBy key l a pos := by
  unfold mapInsertBy
  split
  · next h =>
    rcases List.any_eq_true.mp h with ⟨x, hx, hkey⟩
    exact List.mem_map.mpr ⟨x, hx, by rw [if_pos hkey]⟩
  · exact mem_insertAt l pos a

lemma mem_of_mem_mapInsertBy {key : α → Nat} {l : List α} {a x : α} {pos : Nat}
    (h : x ∈ mapInsertBy key l a pos) : x ∈ l ∨ x = a := by
  unfold mapInsertBy at h
  split at h
  · rcases List.mem_map.mp h with ⟨y, hy, hyx⟩
    by_cases hk : (key y == key a) = true
    · right; rw [if_pos hk] at hyx; exact hyx.symm
    · left; rw [if_neg hk] at hyx; exact hyx ▸ hy
  · rcases List.mem_append.mp h with h' | h'
    · exact Or.inl (List.mem_of_mem_take h')
    · rcases List.mem_cons.mp h' with h'' | h''
      · exact Or.inr h''
      · exact Or.inl (List.mem_of_mem_drop h'')

lemma mapInsertBy_perm_fresh {key : α → Nat} {l : List α} {a : α} (pos : Nat)
    (h : ∀ x ∈ l, key x ≠ key a) :
    (mapInsertBy key l a pos).Perm (l ++ [a]) := by
  unfold mapInsertBy
  have : l.any (fun x => key x == key a) = false := by
    simp only [List.any_eq_false]
    intro x hx
    simpa using h x hx
  rw [this]
  simp only [Bool.false_eq_true, if_false]
  exact insertAt_perm l pos a

/-- C2 (counterexample): on an empty store — both endpoints absent from the
node table — `add_edge(1, 2, "T", {})` does not fail with `InvalidArgument`:
it succeeds with edge id 1, stores the edge, and appends the id to both
adjacency lists, leaving the store with an edge whose endpoints do not exist.
The source (`InMemoryGraphStore::add_edge`) performs no endpoint check. -/
theorem c2_add_edge_counterexample :
    emptyStore.nodes.length = 0 ∧
    (addEdge emptyStore 1 2 "T" [] 0).toOption.map
        (fun r => (r.1, r.2.edges.length, r.2.adjacencyOut 1, r.2.adjacencyIn 2))
      = some (1, 1, [1], [1]) := by
  constructor
  · rfl
  · rfl

/-- C2 (amended): `add_edge(from, to, type, properties)` always succeeds,
with no endpoint validation: it returns the next edge id, stores the edge,
and appends the id to the outgoing adjacency list of `from` and the incoming
adjacency list of `to`.  The invariant that every stored edge has both
endpoints in the node table is preserved only when the caller passes two
existing endpoints; `add_edge` itself does not enforce it. -/
theorem c2_add_edge_amended :
    (∀ (s : Store) (f t : Nat) (ty : String) (props : List (String × Value))
        (pos : Nat), (addEdge s f t ty props pos).isOk = true) ∧
    (∀ (s : Store) (f t : Nat) (ty : String) (props : List (String × Value))
        (pos : Nat) (eid : Nat) (s' : Store),
        addEdge s f t ty props pos = .ok (eid, s') →
        eid = s.nextEdgeId ∧
        s'.adjacencyOut f = s.adjacencyOut f ++ [eid] ∧
        s'.adjacencyIn t = s.adjacencyIn t ++ [eid] ∧
        (∃ e ∈ s'.edges, e.id = eid ∧ e.fromNode = f ∧ e.toNode = t ∧
          e.edgeType = ty) ∧
        s'.nodes = s.nodes ∧
        ((∃ n ∈ s.nodes, n.id = f) → (∃ n ∈ s.nodes, n.id = t) →
          EndpointInv s → EndpointInv s')) := by
  constructor
  · intro s f t ty props pos
    rfl
  · intro s f t ty props pos eid s' h
    simp only [addEdge, Except.ok.injEq, Prod.mk.injEq] at h
    obtain ⟨heid, hs'⟩ := h
    subst heid
    subst hs'
    refine ⟨rfl, by simp [pushAt], by simp [pushAt], ?_, rfl, ?_⟩
    · exact ⟨_, self_mem_mapInsertBy _ _ _ _, rfl, rfl, rfl, rfl⟩
    · intro hf ht hinv
      intro e he
      rcases mem_of_mem_mapInsertBy he with h' | h'
      · exact hinv e h'
      · subst h'
        exact ⟨hf, ht⟩

/-- One `add_node` call of a build script: labels, properties, and the
unspecified iteration-order position of the `HashMap` insertion. -/
structure AddNodeOp where
  labels : List String
  properties : List (String × Value)
  pos : Nat

/-- A store built from a fresh `InMemoryGraphStore` by a sequence of
`add_node` calls (each of which always succeeds in the source). -/
def buildStore (ops : List AddNodeOp) : Store :=
  ops.foldl
    (fun s op =>
      match addNode s op.labels op.properties op.pos with
      | .ok (_, s') => s'
      | .error _ => s)
    emptyStore

/-- The nodes of such a build in insertion order, with the ids `add_node`
assigns (starting at 1, wrapping `u64` increments). -/
def ionAux (c : Nat) : List AddNodeOp → List Node
  | [] => []
  | op :: rest =>
      { id := c, labels := op.labels, properties := op.properties }
        :: ionAux ((c + 1) % U64) rest

/-- Insertion-order node list of `buildStore ops`. -/
def insertionOrderNodes (ops : List AddNodeOp) : List Node :=
  ionAux 1 ops

/-- C3 (counterexample): two `add_node` calls on a fresh store, where the
hash map's unspecified iteration order places the second entry first (as the
seed-dependent `std::collections::HashMap` may): `scan_all` — which is
`self.nodes.values().cloned().collect()` — returns ids `[2, 1]`, not the
insertion order `[1, 2]` claimed by the spec. -/
theorem c3_scan_all_counterexample :
    (scanAll (buildStore [⟨[], [], 0⟩, ⟨[], [], 0⟩])).map Node.id = [2, 1] ∧
    (insertionOrderNodes [⟨[], [], 0⟩, ⟨[], [], 0⟩]).map Node.id = [1, 2] := by
  constructor
  · rfl
  · rfl

lemma buildStore_aux (ops : List AddNodeOp) :
    ∀ s : Store, (∀ n ∈ s.nodes, n.id < s.nextNodeId) →
      s.nextNodeId + ops.length < U64 →
      (ops.foldl
        (fun s op =>
          match addNode s op.labels op.properties op.pos with
          | .ok (_, s') => s'
          | .error _ => s) s).nodes.Perm
        (s.nodes ++ ionAux s.nextNodeId ops) := by
  induction ops with
  | nil =>
    intro s _ _
    simp [ionAux]
  | cons op rest ih =>
    intro s hinv hlen
    rw [List.length_cons] at hlen
    have hstep :
        (match addNode s op.labels op.properties op.pos with
          | .ok (_, s') => s'
          | .error _ => s) =
        { s with
          nodes := mapInsertBy Node.id s.nodes
            { id := s.nextNodeId, labels := op.labels,
              properties := op.properties } op.pos,
          labelIndex := op.labels.foldl
            (fun f l => pushAtStr f l s.nextNodeId) s.labelIndex,
          nextNodeId := (s.nextNodeId + 1) % U64 } := by
      simp [addNode]
    rw [List.foldl_cons, hstep]
    have hnowrap : (s.nextNodeId + 1) % U64 = s.nextNodeId + 1 := by
      apply Nat.mod_eq_of_lt
      omega
    have hfresh : ∀ x ∈ s.nodes, x.id ≠ s.nextNodeId := by
      intro x hx
      exact Nat.ne_of_lt (hinv x hx)
    have hperm := @mapInsertBy_perm_fresh _ Node.id s.nodes
      { id := s.nextNodeId, labels := op.labels,
        properties := op.properties } op.pos hfresh
    have hinv' : ∀ n ∈ mapInsertBy Node.id s.nodes
        { id := s.nextNodeId, labels := op.labels,
          properties := op.properties } op.pos,
        n.id < (s.nextNodeId + 1) % U64 := by
      intro n hn
      rw [hnowrap]
      rcases mem_of_mem_mapInsertBy hn with h' | h'
      · exact Nat.lt_succ_of_lt (hinv n h')
      · subst h'
        exact Nat.lt_succ_self _
    have hlen' : (s.nextNodeId + 1) % U64 + rest.length < U64 := by
      rw [hnowrap]
      omega
    have hrec := ih ({ s with
          nodes := mapInsertBy Node.id s.nodes
            { id := s.nextNodeId, labels := op.labels,
              properties := op.properties } op.pos,
          labelIndex := op.labels.foldl
            (fun f l => pushAtStr f l s.nextNodeId) s.labelIndex,
          nextNodeId := (s.nextNodeId + 1) % U64 }) hinv' hlen'
    refine hrec.trans ?_
    have hion : ionAux s.nextNodeId (op :: rest) =
        { id := s.nextNodeId, labels := op.labels,
          properties := op.properties } :: ionAux ((s.nextNodeId + 1) % U64) rest := rfl
    rw [hion]
    simpa using hperm.append_right (ionAux ((s.nextNodeId + 1) % U64) rest)

/-- C3 (amended): `scan_all` returns every inserted node exactly once — the
result is a permutation of the insertion-order node list — but in the hash
map's unspecified iteration order rather than insertion order.  (Two calls on
the same store state trivially agree, the function being a pure read of the
state.)  The hypothesis keeps the id counter below the `u64` wrap. -/
theorem c3_scan_all_amended (ops : List AddNodeOp)
    (h : 1 + ops.length < U64) :
    (scanAll (buildStore ops)).Perm (insertionOrderNodes ops) := by
  have := buildStore_aux ops emptyStore (by intro n hn; cases hn) (by
    simpa [emptyStore] using h)
  simpa [scanAll, buildStore, insertionOrderNodes, emptyStore] using this

/-- C3 (witness for the amended theorem): a two-insertion build. -/
theorem c3_scan_all_amended_witness :
    1 + ([⟨[], [], 0⟩, ⟨[], [], 0⟩] : List AddNodeOp).length < U64 ∧
    (scanAll (buildStore [⟨[], [], 0⟩, ⟨[], [], 0⟩])).Perm
      (insertionOrderNodes [⟨[], [], 0⟩, ⟨[], [], 0⟩]) := by
  refine ⟨by decide, c3_scan_all_amended _ (by decide)⟩

/-- The id a `WalRecord` inserts. -/
def WalRecord.recId : WalRecord → Nat
  | .addNodeRec e => e.id
  | .addEdgeRec e => e.id

lemma desNodeStep_counterInv {s : Store} {e : NodeEntry}
    (hid : e.id + 1 < U64) (h : CounterInv s) : CounterInv (desNodeStep s e) := by
  obtain ⟨hn, he⟩ := h
  constructor
  · intro n hmem
    simp only [desNodeStep] at hmem ⊢
    rcases mem_of_mem_mapInsertBy hmem with h' | h'
    · by_cases hge : e.id ≥ s.nextNodeId
      · rw [if_pos hge, Nat.mod_eq_of_lt hid]
        exact Nat.lt_of_lt_of_le (hn n h') (Nat.le_succ_of_le hge)
      · rw [if_neg hge]
        exact hn n h'
    · subst h'
      by_cases hge : e.id ≥ s.nextNodeId
      · rw [if_pos hge, Nat.mod_eq_of_lt hid]
        exact Nat.lt_succ_self _
      · rw [if_neg hge]
        exact Nat.lt_of_not_le hge
  · intro x hmem
    exact he x hmem

lemma desEdgeStep_counterInv {s : Store} {e : EdgeEntry}
    (hid : e.id + 1 < U64) (h : CounterInv s) : CounterInv (desEdgeStep s e) := by
  obtain ⟨hn, he⟩ := h
  constructor
  · intro n hmem
    exact hn n hmem
  · intro x hmem
    simp only [desEdgeStep] at hmem ⊢
    rcases mem_of_mem_mapInsertBy hmem with h' | h'
    · by_cases hge : e.id ≥ s.nextEdgeId
      · rw [if_pos hge, Nat.mod_eq_of_lt hid]
        exact Nat.lt_of_lt_of_le (he x h') (Nat.le_succ_of_le hge)
      · rw [if_neg hge]
        exact he x h'
    · subst h'
      by_cases hge : e.id ≥ s.nextEdgeId
      · rw [if_pos hge, Nat.mod_eq_of_lt hid]
        exact Nat.lt_succ_self _
      · rw [if_neg hge]
        exact Nat.lt_of_not_le hge

/-- C9 (counterexample): the counter invariant is not preserved at the `u64`
boundary.  Deserializing a nodes segment containing a node with
id `2^64 - 1` (a value `serde_json` happily yields from `as_u64()`) executes
`next_node_id = id + 1`, which in release builds wraps to `0`: the resulting
store holds node id `2^64 - 1` while `next_node_id = 0`, violating the
invariant that the counter exceeds every id present. -/
theorem c9_counter_counterexample :
    (deserializeNodes emptyStore [⟨U64 - 1, [], [], 0⟩]).nextNodeId = 0 ∧
    ((deserializeNodes emptyStore [⟨U64 - 1, [], [], 0⟩]).nodes.map Node.id)
      = [U64 - 1] ∧
    ¬ CounterInv (deserializeNodes emptyStore [⟨U64 - 1, [], [], 0⟩]) := by
  refine ⟨by decide, by decide, ?_⟩
  unfold CounterInv
  decide

/-- C9 (amended): the invariant "both id counters are strictly greater than
every id present" holds for a fresh store and is preserved by `add_node`,
`add_edge`, `deserialize_nodes`, `deserialize_edges` and `replay_wal`,
provided no inserted id (and no counter about to be bumped) equals
`2^64 - 1` — the sole exception being the wrapping `id + 1` of the
counterexample. -/
theorem c9_counter_invariant_amended :
    CounterInv emptyStore ∧
    (∀ (s : Store) (labels : List String) (props : List (String × Value))
        (pos id : Nat) (s' : Store), s.nextNodeId + 1 < U64 → CounterInv s →
        addNode s labels props pos = .ok (id, s') → CounterInv s') ∧
    (∀ (s : Store) (f t : Nat) (ty : String) (props : List (String × Value))
        (pos id : Nat) (s' : Store), s.nextEdgeId + 1 < U64 → CounterInv s →
        addEdge s f t ty props pos = .ok (id, s') → CounterInv s') ∧
    (∀ (s : Store) (entries : List NodeEntry),
        (∀ e ∈ entries, e.id + 1 < U64) → CounterInv s →
        CounterInv (deserializeNodes s entries)) ∧
    (∀ (s : Store) (entries : List EdgeEntry),
        (∀ e ∈ entries, e.id + 1 < U64) → CounterInv s →
        CounterInv (deserializeEdges s entries)) ∧
    (∀ (s : Store) (records : List WalRecord),
        (∀ r ∈ records, r.recId + 1 < U64) → CounterInv s →
        CounterInv (replayWal s records)) := by
  refine ⟨⟨fun n hn => absurd hn (List.not_mem_nil n),
    fun e he => absurd he (List.not_mem_nil e)⟩, ?_, ?_, ?_, ?_, ?_⟩
  · intro s labels props pos id s' hlt hinv h
    simp only [addNode, Except.ok.injEq, Prod.mk.injEq] at h
    obtain ⟨hid, hs'⟩ := h
    subst hid
    subst hs'
    obtain ⟨hn, he⟩ := hinv
    refine ⟨?_, he⟩
    intro n hmem
    simp only at hmem ⊢
    rw [Nat.mod_eq_of_lt hlt]
    rcases mem_of_mem_mapInsertBy hmem with h' | h'
    · exact Nat.lt_succ_of_lt (hn n h')
    · subst h'
      exact Nat.lt_succ_self _
  · intro s f t ty props pos id s' hlt hinv h
    simp only [addEdge, Except.ok.injEq, Prod.mk.injEq] at h
    obtain ⟨hid, hs'⟩ := h
    subst hid
    subst hs'
    obtain ⟨hn, he⟩ := hinv
    refine ⟨hn, ?_⟩
    intro e hmem
    simp only at hmem ⊢
    rw [Nat.mod_eq_of_lt hlt]
    rcases mem_of_mem_mapInsertBy hmem with h' | h'
    · exact Nat.lt_succ_of_lt (he e h')
    · subst h'
      exact Nat.lt_succ_self _
  · intro s entries
    induction entries generalizing s with
    | nil => intro _ h; exact h
    | cons e rest ih =>
      intro hids h
      have := ih (s := desNodeStep s e) (fun x hx => hids x (List.mem_cons_of_mem _ hx))
        (desNodeStep_counterInv (hids e (List.mem_cons_self _ _)) h)
      simpa [deserializeNodes] using this
  · intro s entries
    induction entries generalizing s with
    | nil => intro _ h; exact h
    | cons e rest ih =>
      intro hids h
      have := ih (s := desEdgeStep s e) (fun x hx => hids x (List.mem_cons_of_mem _ hx))
        (desEdgeStep_counterInv (hids e (List.mem_cons_self _ _)) h)
      simpa [deserializeEdges] using this
  · intro s records
    induction records generalizing s with
    | nil => intro _ h; exact h
    | cons r rest ih =>
      intro hids h
      cases r with
      | addNodeRec e =>
        have hstep := desNodeStep_counterInv (hids _ (List.mem_cons_self _ _)) h
        have := ih (s := desNodeStep s e)
          (fun x hx => hids x (List.mem_cons_of_mem _ hx)) hstep
        simpa [replayWal] using this
      | addEdgeRec e =>
        have hstep := desEdgeStep_counterInv (hids _ (List.mem_cons_self _ _)) h
        have := ih (s := desEdgeStep s e)
          (fun x hx => hids x (List.mem_cons_of_mem _ hx)) hstep
        simpa [replayWal] using this

/-- C9 (witness for the amended theorem): replaying one `AddNode` record on a
fresh store preserves the invariant. -/
theorem c9_counter_invariant_amended_witness :
    CounterInv (replayWal emptyStore [.addNodeRec ⟨7, [], [], 0⟩]) := by
  refine c9_counter_invariant_amended.2.2.2.2.2 emptyStore _ ?_ ?_
  · intro r hr
    simp only [List.mem_singleton] at hr
    subst hr
    decide
  · exact c9_counter_invariant_amended.1

/-- Little-endian byte encoding of `n` on `w` bytes
(`u32::to_le_bytes` / `u64::to_le_bytes`). -/
def leBytes : Nat → Nat → List Nat
  | 0, _ => []
  | w + 1, n => n % 256 :: leBytes w (n / 256)

/-- Little-endian value of a byte list (`from_le_bytes`). -/
def leVal : List Nat → Nat
  | [] => 0
  | b :: bs => b + 256 * leVal bs

lemma leBytes_length (w n : Nat) : (leBytes w n).length = w := by
  induction w generalizing n with
  | zero => rfl
  | succ w ih => simp [leBytes, ih]

lemma leVal_leBytes (w n : Nat) (h : n < 256 ^ w) : leVal (leBytes w n) = n := by
  induction w generalizing n with
  | zero =>
    simp only [Nat.pow_zero, Nat.lt_one_iff] at h
    subst h
    rfl
  | succ w ih =>
    have hdiv : n / 256 < 256 ^ w := by
      rw [Nat.div_lt_iff_lt_mul (by norm_num)]
      calc n < 256 ^ (w + 1) := h
        _ = 256 ^ w * 256 := by ring
    rw [leBytes, leVal, ih _ hdiv]
    omega

lemma leBytes_lt (w n : Nat) : ∀ b ∈ leBytes w n, b < 256 := by
  induction w generalizing n with
  | zero => intro b hb; cases hb
  | succ w ih =>
    intro b hb
    rcases List.mem_cons.mp hb with h | h
    · subst h; exact Nat.mod_lt _ (by norm_num)
    · exact ih _ b h

/-- `wal::read_records` on the contents of one WAL segment file.  The loop
reads a 4-byte little-endian length with `read_exact`; `UnexpectedEof` on
that read — which `read_exact` reports whenever fewer than 4 bytes remain,
whether 0 or 1–3 — breaks out of the loop and returns the records read so
far.  A short payload read fails with `StorageIo`. -/
def readRecords (bytes : List Nat) : Except EngineError (List (List Nat)) :=
  if bytes.length < 4 then .ok []
  else
    let len := leVal (bytes.take 4)
    let rest := bytes.drop 4
    if rest.length < len then .error (.storageErr "read payload")
    else
      match readRecords (rest.drop len) with
      | .ok out => .ok (rest.take len :: out)
      | .error e => .error e
termination_by bytes.length
decreasing_by
  simp only [List.length_drop]
  omega

/-- One length-prefixed record as `WalWriter::write_record` lays it out:
`u32` little-endian length, then the payload bytes. -/
def encodeRecord (r : List Nat) : List Nat :=
  leBytes 4 r.length ++ r

/-- A WAL segment file holding exactly the given records. -/
def encodeRecords (rs : List (List Nat)) : List Nat :=
  (rs.map encodeRecord).flatten

/-- C4 (counterexample): a file consisting of one complete record (payload
`[7]`) followed by a single stray byte — EOF inside the next 4-byte length
prefix.  `read_records` does not fail with `StorageIo`: the `UnexpectedEof`
from the length read breaks the loop, silently returning only the preceding
complete record. -/
theorem c4_read_records_counterexample :
    readRecords [1, 0, 0, 0, 7, 0] = .ok [[7]] := by
  rw [readRecords]
  norm_num [leVal]
  rw [readRecords]
  norm_num

/-- C4 (amended): only EOF inside a record payload is reported as
`StorageIo`; EOF inside (or at the start of) the 4-byte length prefix is
treated as end-of-file, and the preceding complete records are returned
silently.  Concretely: for a file of well-formed records followed by a tail
of fewer than 4 bytes, `read_records` returns exactly the records; for a
file of well-formed records followed by a length prefix `n` and fewer than
`n` payload bytes, it fails with `StorageIo`. -/
theorem c4_read_records_amended (rs : List (List Nat))
    (hlen : ∀ r ∈ rs, r.length < 4294967296) :
    (∀ tail : List Nat, tail.length < 4 →
      readRecords (encodeRecords rs ++ tail) = .ok rs) ∧
    (∀ (n : Nat) (short : List Nat), n < 4294967296 → short.length < n →
      readRecords (encodeRecords rs ++ (leBytes 4 n ++ short))
        = .error (.storageErr "read payload")) := by
  induction rs with
  | nil =>
    refine ⟨?_, ?_⟩
    · intro tail htail
      rw [show encodeRecords [] ++ tail = tail from by simp [encodeRecords]]
      rw [readRecords]
      rw [if_pos htail]
    · intro n short hn hshort
      rw [show encodeRecords [] ++ (leBytes 4 n ++ short) = leBytes 4 n ++ short
        from by simp [encodeRecords]]
      rw [readRecords]
      have hl4 : (leBytes 4 n).length = 4 := leBytes_length 4 n
      have hlen' : (leBytes 4 n ++ short).length = 4 + short.length := by
        simp [hl4]
      rw [if_neg (by omega)]
      have htake : (leBytes 4 n ++ short).take 4 = leBytes 4 n :=
        List.take_left' hl4
      have hdrop : (leBytes 4 n ++ short).drop 4 = short :=
        List.drop_left' hl4
      rw [htake, hdrop, leVal_leBytes 4 n (by norm_num; omega)]
      rw [if_pos hshort]
  | cons r rs' ih =>
    have hr : r.length < 4294967296 := hlen r (List.mem_cons_self _ _)
    have ih' := ih (fun x hx => hlen x (List.mem_cons_of_mem _ hx))
    have hsplit : ∀ X : List Nat, encodeRecords (r :: rs') ++ X
        = leBytes 4 r.length ++ (r ++ (encodeRecords rs' ++ X)) := by
      intro X
      simp [encodeRecords, encodeRecord]
    have hstep : ∀ X : List Nat,
        readRecords (encodeRecords (r :: rs') ++ X) =
        match readRecords (encodeRecords rs' ++ X) with
        | .ok out => .ok (r :: out)
        | .error e => .error e := by
      intro X
      rw [hsplit]
      rw [readRecords]
      have hl4 : (leBytes 4 r.length).length = 4 := leBytes_length 4 _
      have htotlen : (leBytes 4 r.length ++ (r ++ (encodeRecords rs' ++ X))).length
          = 4 + (r.length + (encodeRecords rs' ++ X).length) := by
        simp [hl4]
      rw [if_neg (by omega)]
      have htake : (leBytes 4 r.length ++ (r ++ (encodeRecords rs' ++ X))).take 4
          = leBytes 4 r.length := List.take_left' hl4
      have hdrop : (leBytes 4 r.length ++ (r ++ (encodeRecords rs' ++ X))).drop 4
          = r ++ (encodeRecords rs' ++ X) := List.drop_left' hl4
      rw [htake, hdrop, leVal_leBytes 4 r.length (by norm_num; omega)]
      have hrestlen : (r ++ (encodeRecords rs' ++ X)).length
          = r.length + (encodeRecords rs' ++ X).length := by simp
      rw [if_neg (by omega)]
      have htakeR : (r ++ (encodeRecords rs' ++ X)).take r.length = r :=
        List.take_left' rfl
      have hdropR : (r ++ (encodeRecords rs' ++ X)).drop r.length
          = encodeRecords rs' ++ X := List.drop_left' rfl
      rw [htakeR, hdropR]
    refine ⟨?_, ?_⟩
    · intro tail htail
      rw [hstep tail, ih'.1 tail htail]
    · intro n short hn hshort
      rw [hstep (leBytes 4 n ++ short), ih'.2 n short hn hshort]

/-- C4 (witness for the amended theorem): one complete record `[7]` plus a
one-byte torn length prefix is read back as `[[7]]`; one complete record
`[7]` plus a full length prefix announcing 2 bytes but only 1 byte of
payload fails with `StorageIo`. -/
theorem c4_read_records_amended_witness :
    readRecords (encodeRecords [[7]] ++ [0]) = .ok [[7]] ∧
    readRecords (encodeRecords [[7]] ++ (leBytes 4 2 ++ [9]))
      = .error (.storageErr "read payload") := by
  have h := c4_read_records_amended [[7]] (by
    intro r hr
    simp only [List.mem_singleton] at hr
    subst hr
    norm_num)
  exact ⟨h.1 [0] (by norm_num), h.2 2 [9] (by norm_num) (by norm_num)⟩

/-! CRC-32 (the `crc32fast::hash` polynomial 0xEDB88320, reflected, initial
value and final xor 0xFFFFFFFF), defined bit-serially. -/

/-- The reflected CRC-32 polynomial. -/
def crcPoly : Nat := 0xEDB88320

/-- One bit step of the reflected CRC-32 register update. -/
def crcStep (c : Nat) : Nat :=
  if c % 2 = 1 then (c / 2) ^^^ crcPoly else c / 2

/-- One byte step: xor the byte into the register, then eight bit steps. -/
def crcByte (c b : Nat) : Nat :=
  crcStep^[8] (c ^^^ b)

/-- CRC-32 of a byte string. -/
def crc32 (data : List Nat) : Nat :=
  (data.foldl crcByte 0xFFFFFFFF) ^^^ 0xFFFFFFFF

lemma xor_right_comm (x y z : Nat) : (x ^^^ y) ^^^ z = (x ^^^ z) ^^^ y := by
  rw [Nat.xor_assoc, Nat.xor_comm y z, ← Nat.xor_assoc]

lemma xor_xor_cancel_right (x y z : Nat) : (x ^^^ z) ^^^ (y ^^^ z) = x ^^^ y := by
  apply Nat.eq_of_testBit_eq
  intro i
  simp only [Nat.testBit_xor]
  cases x.testBit i <;> cases y.testBit i <;> cases z.testBit i <;> rfl

lemma xor_pair_cancel (c b t : Nat) : (c ^^^ b) ^^^ (c ^^^ (b ^^^ t)) = t := by
  apply Nat.eq_of_testBit_eq
  intro i
  simp only [Nat.testBit_xor]
  cases c.testBit i <;> cases b.testBit i <;> cases t.testBit i <;> rfl

lemma xor_div_two (a b : Nat) : (a ^^^ b) / 2 = a / 2 ^^^ b / 2 := by
  apply Nat.eq_of_testBit_eq
  intro i
  rw [← Nat.testBit_succ, Nat.testBit_xor, Nat.testBit_xor, Nat.testBit_succ,
    Nat.testBit_succ]

lemma crcStep_linear (a b : Nat) : crcStep (a ^^^ b) = crcStep a ^^^ crcStep b := by
  unfold crcStep
  rcases Nat.mod_two_eq_zero_or_one a with ha | ha <;>
    rcases Nat.mod_two_eq_zero_or_one b with hb | hb
  · have hab : (a ^^^ b) % 2 = 0 := by rw [Nat.xor_mod_two_eq]; omega
    rw [if_neg (by omega), if_neg (by omega), if_neg (by omega), xor_div_two]
  · have hab : (a ^^^ b) % 2 = 1 := by rw [Nat.xor_mod_two_eq]; omega
    rw [if_pos hab, if_neg (by omega), if_pos hb, xor_div_two, Nat.xor_assoc]
  · have hab : (a ^^^ b) % 2 = 1 := by rw [Nat.xor_mod_two_eq]; omega
    rw [if_pos hab, if_pos ha, if_neg (by omega), xor_div_two, xor_right_comm]
  · have hab : (a ^^^ b) % 2 = 0 := by rw [Nat.xor_mod_two_eq]; omega
    rw [if_neg (by omega), if_pos ha, if_pos hb, xor_div_two,
      ← xor_xor_cancel_right (a / 2) (b / 2) crcPoly]

lemma crcIter_linear (n a b : Nat) :
    crcStep^[n] (a ^^^ b) = crcStep^[n] a ^^^ crcStep^[n] b := by
  induction n generalizing a b with
  | zero => rfl
  | succ n ih =>
    rw [Function.iterate_succ_apply, Function.iterate_succ_apply,
      Function.iterate_succ_apply, crcStep_linear, ih]

lemma crcStep_lt {c : Nat} (h : c < 4294967296) : crcStep c < 4294967296 := by
  unfold crcStep
  split
  · exact Nat.xor_lt_two_pow (n := 32) (by omega) (by norm_num [crcPoly])
  · omega

lemma crcIter_lt {c : Nat} (n : Nat) (h : c < 4294967296) :
    crcStep^[n] c < 4294967296 := by
  induction n generalizing c with
  | zero => exact h
  | succ n ih =>
    rw [Function.iterate_succ_apply]
    exact ih (crcStep_lt h)

lemma crcStep_eq_zero {c : Nat} (hc : c < 4294967296) (h : crcStep c = 0) :
    c = 0 := by
  unfold crcStep at h
  split at h
  · exfalso
    have : c / 2 = crcPoly := by
      have := Nat.xor_eq_zero.mp h
      exact this
    have hlt : c / 2 < 2147483648 := by omega
    rw [this] at hlt
    norm_num [crcPoly] at hlt
  · omega

lemma crcIter_ne_zero {d : Nat} (n : Nat) (hlt : d < 4294967296) (hne : d ≠ 0) :
    crcStep^[n] d ≠ 0 := by
  induction n generalizing d with
  | zero => exact hne
  | succ n ih =>
    rw [Function.iterate_succ_apply]
    refine ih (crcStep_lt hlt) ?_
    intro h
    exact hne (crcStep_eq_zero hlt h)

lemma crcFold_xor (l : List Nat) (c c' : Nat) :
    (l.foldl crcByte c) ^^^ (l.foldl crcByte c') = crcStep^[8 * l.length] (c ^^^ c') := by
  induction l generalizing c c' with
  | nil => simp
  | cons b l ih =>
    rw [List.foldl_cons, List.foldl_cons, ih]
    have hbyte : crcByte c b ^^^ crcByte c' b = crcStep^[8] (c ^^^ c') := by
      unfold crcByte
      rw [← crcIter_linear]
      congr 1
      exact xor_xor_cancel_right c c' b
    rw [hbyte, ← Function.iterate_add_apply]
    have hlen8 : 8 * (b :: l).length = 8 * l.length + 8 := by
      rw [List.length_cons]
      omega
    rw [hlen8]

/-- Flipping bit `i < 8` of one payload byte changes the CRC-32: the register
difference after the byte is `crcStep^[8] (2^i) ≠ 0`, and each further byte
applies the injective linear map `crcStep^[8]` to it. -/
lemma crc32_flip_ne (l r : List Nat) (b i : Nat) (hi : i < 8) :
    crc32 (l ++ b :: r) ≠ crc32 (l ++ (b ^^^ 2 ^ i) :: r) := by
  intro heq
  have hxor : crc32 (l ++ b :: r) ^^^ crc32 (l ++ (b ^^^ 2 ^ i) :: r) = 0 := by
    rw [heq, Nat.xor_self]
  unfold crc32 at hxor
  rw [xor_xor_cancel_right] at hxor
  rw [List.foldl_append, List.foldl_append, List.foldl_cons, List.foldl_cons,
    crcFold_xor] at hxor
  set c0 := List.foldl crcByte 0xFFFFFFFF l
  have hbyte : crcByte c0 b ^^^ crcByte c0 (b ^^^ 2 ^ i) = crcStep^[8] (2 ^ i) := by
    unfold crcByte
    rw [← crcIter_linear]
    congr 1
    exact xor_pair_cancel c0 b (2 ^ i)
  rw [hbyte, ← Function.iterate_add_apply] at hxor
  have hlt : (2 : Nat) ^ i < 4294967296 := by
    calc (2 : Nat) ^ i < 2 ^ 8 := Nat.pow_lt_pow_right (by norm_num) hi
      _ < 4294967296 := by norm_num
  exact crcIter_ne_zero _ hlt (Nat.pos_iff_ne_zero.mp (Nat.pos_pow_of_pos i (by norm_num))) hxor

lemma crc32_lt (data : List Nat) (h : ∀ x ∈ data, x < 256) :
    crc32 data < 4294967296 := by
  unfold crc32
  have hfold : ∀ (l : List Nat) (c : Nat), (∀ x ∈ l, x < 256) → c < 4294967296 →
      l.foldl crcByte c < 4294967296 := by
    intro l
    induction l with
    | nil => intro c _ hc; exact hc
    | cons x l ih =>
      intro c hl hc
      rw [List.foldl_cons]
      refine ih _ (fun y hy => hl y (List.mem_cons_of_mem _ hy)) ?_
      unfold crcByte
      refine crcIter_lt 8 (Nat.xor_lt_two_pow (n := 32) hc ?_)
      calc x < 256 := hl x (List.mem_cons_self _ _)
        _ < 2 ^ 32 := by norm_num
  exact Nat.xor_lt_two_pow (n := 32) (hfold data _ h (by norm_num)) (by norm_num)

/-! Segment codec (casys_storage_fs::segments). -/

/-- The segment magic `0x43415353` ("CASS"). -/
def segMagic : Nat := 0x43415353

/-- The segment format version. -/
def segVersion : Nat := 1

/-- `SegmentHeader`. -/
structure SegmentHeader where
  magic : Nat
  version : Nat
  nodeCount : Nat
  edgeCount : Nat
  checksum : Nat

/-- `SegmentHeader::to_bytes`: magic u32 LE, version u16 LE, node count u64
LE, edge count u64 LE, checksum u32 LE — 26 bytes. -/
def SegmentHeader.toBytes (h : SegmentHeader) : List Nat :=
  leBytes 4 h.magic ++ (leBytes 2 h.version ++ (leBytes 8 h.nodeCount ++
    (leBytes 8 h.edgeCount ++ leBytes 4 h.checksum)))

/-- `SegmentHeader::from_bytes`: length check, magic check, then the field
reads at byte offsets 0, 4, 6, 14, 22. -/
def SegmentHeader.fromBytes (bytes : List Nat) : Except EngineError SegmentHeader :=
  if bytes.length < 26 then .error (.storageErr "segment header too short")
  else
    let magic := leVal (bytes.take 4)
    if magic ≠ segMagic then .error (.storageErr "invalid segment magic")
    else .ok
      { magic := magic,
        version := leVal ((bytes.drop 4).take 2),
        nodeCount := leVal ((bytes.drop 6).take 8),
        edgeCount := leVal ((bytes.drop 14).take 8),
        checksum := leVal ((bytes.drop 22).take 4) }

/-- `Segment`. -/
structure Segment where
  header : SegmentHeader
  data : List Nat

/-- `Segment::new`: header with the CRC-32 of the payload. -/
def Segment.new (nc ec : Nat) (data : List Nat) : Segment :=
  { header := { magic := segMagic, version := segVersion, nodeCount := nc,
                edgeCount := ec, checksum := crc32 data },
    data := data }

/-- `Segment::write_to_path`: the file contents are header bytes followed by
the payload. -/
def Segment.writeBytes (s : Segment) : List Nat :=
  s.header.toBytes ++ s.data

/-- `Segment::read_from_path` on the file contents: `read_exact` of the
26-byte header (EOF → `StorageIo`), `from_bytes`, `read_to_end` of the
payload, CRC comparison (mismatch → `StorageIo`). -/
def Segment.readBytes (bytes : List Nat) : Except EngineError Segment :=
  if bytes.length < 26 then .error (.storageErr "read header")
  else
    match SegmentHeader.fromBytes (bytes.take 26) with
    | .error e => .error e
    | .ok header =>
      let data := bytes.drop 26
      if crc32 data ≠ header.checksum then
        .error (.storageErr "checksum mismatch")
      else .ok { header := header, data := data }

lemma segHeader_toBytes_length (h : SegmentHeader) : h.toBytes.length = 26 := by
  simp [SegmentHeader.toBytes, leBytes_length]

lemma segHeader_fromBytes_toBytes (h : SegmentHeader) (hm : h.magic = segMagic)
    (hv : h.version < 65536) (hn : h.nodeCount < U64) (he : h.edgeCount < U64)
    (hc : h.checksum < 4294967296) :
    SegmentHeader.fromBytes h.toBytes = .ok h := by
  have hlen := segHeader_toBytes_length h
  unfold SegmentHeader.fromBytes
  rw [if_neg (by omega)]
  have htake4 : h.toBytes.take 4 = leBytes 4 h.magic :=
    List.take_left' (leBytes_length 4 _)
  have hmagic : leVal (h.toBytes.take 4) = h.magic := by
    rw [htake4]
    exact leVal_leBytes 4 _ (by rw [hm]; norm_num [segMagic])
  rw [hmagic, if_neg (by rw [hm]; simp)]
  have hdrop4 : h.toBytes.drop 4 = leBytes 2 h.version ++ (leBytes 8 h.nodeCount ++
      (leBytes 8 h.edgeCount ++ leBytes 4 h.checksum)) :=
    List.drop_left' (leBytes_length 4 _)
  have hdrop6 : h.toBytes.drop 6 = leBytes 8 h.nodeCount ++
      (leBytes 8 h.edgeCount ++ leBytes 4 h.checksum) := by
    have : h.toBytes.drop 6 = (h.toBytes.drop 4).drop 2 := by
      rw [List.drop_drop]
    rw [this, hdrop4]
    exact List.drop_left' (leBytes_length 2 _)
  have hdrop14 : h.toBytes.drop 14 = leBytes 8 h.edgeCount ++ leBytes 4 h.checksum := by
    have : h.toBytes.drop 14 = (h.toBytes.drop 6).drop 8 := by
      rw [List.drop_drop]
    rw [this, hdrop6]
    exact List.drop_left' (leBytes_length 8 _)
  have hdrop22 : h.toBytes.drop 22 = leBytes 4 h.checksum := by
    have : h.toBytes.drop 22 = (h.toBytes.drop 14).drop 8 := by
      rw [List.drop_drop]
    rw [this, hdrop14]
    exact List.drop_left' (leBytes_length 8 _)
  rw [hdrop4, hdrop6, hdrop14, hdrop22]
  rw [List.take_left' (leBytes_length 2 _), List.take_left' (leBytes_length 8 _),
    List.take_left' (leBytes_length 8 _)]
  have htakeE : (leBytes 4 h.checksum).take 4 = leBytes 4 h.checksum :=
    List.take_of_length_le (by rw [leBytes_length])
  rw [htakeE]
  rw [leVal_leBytes 2 _ (by norm_num; omega), leVal_leBytes 8 _ (by norm_num [U64] at hn ⊢; omega),
    leVal_leBytes 8 _ (by norm_num [U64] at he ⊢; omega), leVal_leBytes 4 _ (by norm_num; omega)]

/-- C6: segment write/read round-trip and single-bit-flip detection.
(1) For node/edge counts in `u64` range and byte-valued payload, reading back
the written file returns exactly the segment.  (2) Flipping bit `i < 8` of
the payload byte at payload offset `j` (file offset `26 + j`) makes the read
fail with `StorageIo` — the stored CRC-32 no longer matches the payload. -/
theorem c6_segment_roundtrip_and_flip :
    (∀ (nc ec : Nat) (data : List Nat), nc < U64 → ec < U64 →
      (∀ x ∈ data, x < 256) →
      Segment.readBytes (Segment.writeBytes (Segment.new nc ec data))
        = .ok (Segment.new nc ec data)) ∧
    (∀ (nc ec : Nat) (l r : List Nat) (b i : Nat), nc < U64 → ec < U64 →
      i < 8 → (∀ x ∈ l ++ b :: r, x < 256) →
      Segment.readBytes
          ((Segment.writeBytes (Segment.new nc ec (l ++ b :: r))).set
            (26 + l.length) (b ^^^ 2 ^ i))
        = .error (.storageErr "checksum mismatch")) := by
  have hread : ∀ (nc ec : Nat) (data payload : List Nat),
      nc < U64 → ec < U64 → (∀ x ∈ data, x < 256) →
      Segment.readBytes ((Segment.new nc ec data).header.toBytes ++ payload)
        = (if crc32 payload ≠ crc32 data then
            .error (.storageErr "checksum mismatch")
          else .ok { header := (Segment.new nc ec data).header, data := payload }) := by
    intro nc ec data payload hnc hec hdata
    have hhl := segHeader_toBytes_length (Segment.new nc ec data).header
    unfold Segment.readBytes
    rw [if_neg (by simp only [List.length_append, hhl]; omega)]
    rw [List.take_left' hhl, List.drop_left' hhl]
    rw [segHeader_fromBytes_toBytes _ rfl (by norm_num [Segment.new, segVersion]) hnc hec
      (crc32_lt data hdata)]
    rfl
  constructor
  · intro nc ec data hnc hec hdata
    have h := hread nc ec data data hnc hec hdata
    rw [show Segment.writeBytes (Segment.new nc ec data)
        = (Segment.new nc ec data).header.toBytes ++ data from rfl]
    rw [h, if_neg (by simp)]
    rfl
  · intro nc ec l r b i hnc hec hi hdata
    have hhl := segHeader_toBytes_length (Segment.new nc ec (l ++ b :: r)).header
    have hset : (Segment.writeBytes (Segment.new nc ec (l ++ b :: r))).set
        (26 + l.length) (b ^^^ 2 ^ i)
        = (Segment.new nc ec (l ++ b :: r)).header.toBytes ++
            (l ++ (b ^^^ 2 ^ i) :: r) := by
      show ((Segment.new nc ec (l ++ b :: r)).header.toBytes ++ (l ++ b :: r)).set
          (26 + l.length) (b ^^^ 2 ^ i) = _
      rw [List.set_append_right _ _ (by rw [hhl]; omega)]
      congr 1
      rw [hhl]
      rw [show 26 + l.length - 26 = l.length from by omega]
      rw [List.set_append_right _ _ (Nat.le_refl _)]
      simp
    rw [hset]
    rw [hread nc ec (l ++ b :: r) (l ++ (b ^^^ 2 ^ i) :: r) hnc hec hdata]
    rw [if_pos (Ne.symm (crc32_flip_ne l r b i hi))]

/-- C6 (witness): concrete round-trip of payload `[1, 2, 3]` and rejection of
the same file with bit 0 of payload byte 1 flipped. -/
theorem c6_segment_roundtrip_and_flip_witness :
    Segment.readBytes (Segment.writeBytes (Segment.new 1 0 [1, 2, 3]))
      = .ok (Segment.new 1 0 [1, 2, 3]) ∧
    Segment.readBytes
        ((Segment.writeBytes (Segment.new 1 0 ([1] ++ 2 :: [3]))).set
          (26 + [1].length) (2 ^^^ 2 ^ 0))
      = .error (.storageErr "checksum mismatch") := by
  constructor
  · exact c6_segment_roundtrip_and_flip.1 1 0 [1, 2, 3] (by norm_num [U64])
      (by norm_num [U64]) (by decide)
  · exact c6_segment_roundtrip_and_flip.2 1 0 [1] [3] 2 0 (by norm_num [U64])
      (by norm_num [U64]) (by norm_num)
      (by decide)

/-! Lexicographic byte-string comparison (Rust `Ord::cmp` on filenames:
pointwise on bytes, a strict prefix sorts first). -/

/-- Strict lexicographic order on byte lists. -/
def lexLt : List Nat → List Nat → Bool
  | [], [] => false
  | [], _ :: _ => true
  | _ :: _, [] => false
  | a :: as, b :: bs => if a < b then true else if b < a then false else lexLt as bs

lemma lexLt_irrefl : ∀ l : List Nat, lexLt l l = false := by
  intro l
  induction l with
  | nil => rfl
  | cons a as ih => simp [lexLt, ih]

lemma lexLt_asymm : ∀ a b : List Nat, lexLt a b = true → lexLt b a = false := by
  intro a
  induction a with
  | nil =>
    intro b _
    cases b with
    | nil => rfl
    | cons x xs => rfl
  | cons x xs ih =>
    intro b h
    cases b with
    | nil => exact absurd h (by simp [lexLt])
    | cons y ys =>
      simp only [lexLt] at h ⊢
      rcases Nat.lt_trichotomy x y with hxy | hxy | hxy
      · rw [if_neg (by omega), if_pos hxy]
      · subst hxy
        rw [if_neg (by omega), if_neg (by omega)] at h ⊢
        exact ih ys h
      · rw [if_neg (by omega), if_pos hxy] at h
        exact absurd h (by simp)

lemma lexLt_connex : ∀ a b : List Nat, lexLt a b = false → lexLt b a = false → a = b := by
  intro a
  induction a with
  | nil =>
    intro b h _
    cases b with
    | nil => rfl
    | cons y ys => exact absurd h (by simp [lexLt])
  | cons x xs ih =>
    intro b h h'
    cases b with
    | nil => exact absurd h' (by simp [lexLt])
    | cons y ys =>
      simp only [lexLt] at h h'
      rcases Nat.lt_trichotomy x y with hxy | hxy | hxy
      · rw [if_pos hxy] at h
        exact absurd h (by simp)
      · subst hxy
        rw [if_neg (by omega), if_neg (by omega)] at h h'
        rw [ih ys h h']
      · rw [if_pos hxy] at h'
        exact absurd h' (by simp)

lemma lexLt_trans : ∀ a b c : List Nat,
    lexLt a b = true → lexLt b c = true → lexLt a c = true := by
  intro a
  induction a with
  | nil =>
    intro b c hab hbc
    cases c with
    | nil =>
      cases b with
      | nil => exact hab
      | cons y ys => exact absurd hbc (by simp [lexLt])
    | cons z zs => rfl
  | cons x xs ih =>
    intro b c hab hbc
    cases b with
    | nil => exact absurd hab (by simp [lexLt])
    | cons y ys =>
      cases c with
      | nil => exact absurd hbc (by simp [lexLt])
      | cons z zs =>
        simp only [lexLt] at hab hbc ⊢
        rcases Nat.lt_trichotomy x y with hxy | hxy | hxy
        · rcases Nat.lt_trichotomy y z with hyz | hyz | hyz
          · rw [if_pos (by omega)]
          · subst hyz
            rw [if_pos hxy]
          · rw [if_neg (by omega), if_pos hyz] at hbc
            exact absurd hbc (by simp)
        · subst hxy
          rcases Nat.lt_trichotomy x z with hyz | hyz | hyz
          · rw [if_pos hyz]
          · subst hyz
            rw [if_neg (by omega), if_neg (by omega)] at hab hbc ⊢
            exact ih ys zs hab hbc
          · rw [if_neg (by omega), if_pos hyz] at hbc
            exact absurd hbc (by simp)
        · rw [if_neg (by omega), if_pos hxy] at hab
          exact absurd hab (by simp)

lemma lexLt_append_same : ∀ p u v : List Nat,
    lexLt (p ++ u) (p ++ v) = lexLt u v := by
  intro p
  induction p with
  | nil => intro u v; rfl
  | cons x xs ih =>
    intro u v
    have hx : ¬ x < x := by omega
    simp only [List.cons_append, lexLt, if_neg hx]
    exact ih u v

lemma lexLt_append_same_right : ∀ u v s : List Nat, u.length = v.length →
    lexLt (u ++ s) (v ++ s) = lexLt u v := by
  intro u
  induction u with
  | nil =>
    intro v s h
    cases v with
    | nil => simp [lexLt_irrefl, lexLt]
    | cons y ys => exact absurd h (by simp)
  | cons x xs ih =>
    intro v s h
    cases v with
    | nil => exact absurd h (by simp)
    | cons y ys =>
      simp only [List.cons_append, lexLt]
      rcases Nat.lt_trichotomy x y with hxy | hxy | hxy
      · rw [if_pos hxy, if_pos hxy]
      · subst hxy
        have hx : ¬ x < x := by omega
        simp only [if_neg hx]
        exact ih ys s (by simpa using h)
      · rw [if_neg (by omega), if_pos hxy, if_neg (by omega), if_pos hxy]

lemma lexLt_map_add (c : Nat) : ∀ u v : List Nat,
    lexLt (u.map (· + c)) (v.map (· + c)) = lexLt u v := by
  intro u
  induction u with
  | nil =>
    intro v
    cases v with
    | nil => rfl
    | cons y ys => rfl
  | cons x xs ih =>
    intro v
    cases v with
    | nil => rfl
    | cons y ys =>
      simp only [List.map_cons, lexLt]
      rcases Nat.lt_trichotomy x y with hxy | hxy | hxy
      · rw [if_pos (by omega), if_pos hxy]
      · subst hxy
        rw [if_neg (by omega), if_neg (by omega), if_neg (by omega), if_neg (by omega)]
        exact ih ys
      · rw [if_neg (by omega), if_pos (by omega), if_neg (by omega), if_pos hxy]

/-! Decimal rendering of a `u64` (`format!("{}", ts)` in the manifest
filename), via a structurally recursive helper. -/

/-- Least-significant-first decimal digits, with fuel. -/
def decDigitsAux : Nat → Nat → List Nat
  | 0, _ => []
  | fuel + 1, n => if n = 0 then [] else n % 10 :: decDigitsAux fuel (n / 10)

/-- Least-significant-first decimal digits of `n` (empty for 0). -/
def digitsLSB (n : Nat) : List Nat := decDigitsAux n n

lemma decDigitsAux_stable : ∀ n fuel fuel', n ≤ fuel → n ≤ fuel' →
    decDigitsAux fuel n = decDigitsAux fuel' n := by
  intro n
  induction n using Nat.strong_induction_on with
  | _ n ih =>
    intro fuel fuel' hf hf'
    cases fuel with
    | zero =>
      have hn : n = 0 := by omega
      subst hn
      cases fuel' with
      | zero => rfl
      | succ f' => simp [decDigitsAux]
    | succ f =>
      cases fuel' with
      | zero =>
        have hn : n = 0 := by omega
        subst hn
        simp [decDigitsAux]
      | succ f' =>
        by_cases hn : n = 0
        · subst hn
          simp [decDigitsAux]
        · simp only [decDigitsAux, if_neg hn]
          have hdiv : n / 10 < n := Nat.div_lt_self (by omega) (by omega)
          rw [ih (n / 10) hdiv f f' (by omega) (by omega)]

lemma digitsLSB_succ (n : Nat) (hn : n ≠ 0) :
    digitsLSB n = n % 10 :: digitsLSB (n / 10) := by
  unfold digitsLSB
  cases n with
  | zero => exact absurd rfl hn
  | succ m =>
    simp only [decDigitsAux, if_neg hn]
    congr 1
    exact decDigitsAux_stable _ _ _
      (by have := Nat.div_lt_self (Nat.succ_pos m) (by omega : (1 : Nat) < 10); omega)
      (Nat.le_refl _)

/-- Value of a least-significant-first digit list. -/
def valLSB : List Nat → Nat
  | [] => 0
  | d :: ds => d + 10 * valLSB ds

/-- Value of a most-significant-first digit list. -/
def valMSB : List Nat → Nat
  | [] => 0
  | d :: ds => d * 10 ^ ds.length + valMSB ds

lemma valMSB_append_singleton (xs : List Nat) (d : Nat) :
    valMSB (xs ++ [d]) = 10 * valMSB xs + d := by
  induction xs with
  | nil => simp [valMSB]
  | cons x xs ih =>
    rw [List.cons_append]
    rw [show valMSB (x :: (xs ++ [d])) = x * 10 ^ (xs ++ [d]).length + valMSB (xs ++ [d])
      from rfl]
    rw [show valMSB (x :: xs) = x * 10 ^ xs.length + valMSB xs from rfl]
    rw [ih, List.length_append, List.length_cons, List.length_nil]
    ring

lemma valMSB_reverse (ls : List Nat) : valMSB ls.reverse = valLSB ls := by
  induction ls with
  | nil => rfl
  | cons d ds ih =>
    rw [List.reverse_cons, valMSB_append_singleton, ih, valLSB]
    ring

lemma valLSB_digitsLSB (n : Nat) : valLSB (digitsLSB n) = n := by
  induction n using Nat.strong_induction_on with
  | _ n ih =>
    by_cases hn : n = 0
    · subst hn; rfl
    · rw [digitsLSB_succ n hn, valLSB,
        ih (n / 10) (Nat.div_lt_self (by omega) (by omega))]
      omega

lemma digitsLSB_lt_ten (n : Nat) : ∀ d ∈ digitsLSB n, d < 10 := by
  induction n using Nat.strong_induction_on with
  | _ n ih =>
    by_cases hn : n = 0
    · subst hn; intro d hd; cases hd
    · rw [digitsLSB_succ n hn]
      intro d hd
      rcases List.mem_cons.mp hd with h | h
      · subst h; exact Nat.mod_lt _ (by omega)
      · exact ih (n / 10) (Nat.div_lt_self (by omega) (by omega)) d h

lemma digitsLSB_length (k : Nat) : ∀ n, 10 ^ k ≤ n → n < 10 ^ (k + 1) →
    (digitsLSB n).length = k + 1 := by
  induction k with
  | zero =>
    intro n h1 h2
    simp only [pow_zero, pow_one] at h1 h2
    rw [digitsLSB_succ n (by omega)]
    have hz : n / 10 = 0 := by omega
    rw [hz]
    rfl
  | succ k ih =>
    intro n h1 h2
    have hpos : 0 < 10 ^ (k + 1) := Nat.pos_pow_of_pos _ (by omega)
    have hn : n ≠ 0 := by omega
    have hb1 : 10 ^ k ≤ n / 10 := by
      rw [Nat.le_div_iff_mul_le (by omega)]
      calc 10 ^ k * 10 = 10 ^ (k + 1) := by ring
        _ ≤ n := h1
    have hb2 : n / 10 < 10 ^ (k + 1) := by
      rw [Nat.div_lt_iff_lt_mul (by omega)]
      calc n < 10 ^ (k + 1 + 1) := h2
        _ = 10 ^ (k + 1) * 10 := by ring
    rw [digitsLSB_succ n hn, List.length_cons, ih (n / 10) hb1 hb2]

lemma valMSB_lt (ds : List Nat) (h : ∀ d ∈ ds, d < 10) :
    valMSB ds < 10 ^ ds.length := by
  induction ds with
  | nil => simp [valMSB]
  | cons d ds ih =>
    rw [valMSB, List.length_cons]
    have hd : d < 10 := h d (List.mem_cons_self _ _)
    have hds := ih (fun x hx => h x (List.mem_cons_of_mem _ hx))
    calc d * 10 ^ ds.length + valMSB ds
        < d * 10 ^ ds.length + 10 ^ ds.length := by omega
      _ = (d + 1) * 10 ^ ds.length := by ring
      _ ≤ 10 * 10 ^ ds.length := by
          exact Nat.mul_le_mul_right _ (by omega)
      _ = 10 ^ (ds.length + 1) := by ring

lemma lexLt_iff_valMSB : ∀ ds es : List Nat, ds.length = es.length →
    (∀ d ∈ ds, d < 10) → (∀ e ∈ es, e < 10) →
    (lexLt ds es = true ↔ valMSB ds < valMSB es) := by
  intro ds
  induction ds with
  | nil =>
    intro es hlen _ _
    have : es = [] := List.length_eq_zero.mp hlen.symm
    subst this
    simp [lexLt, valMSB]
  | cons d ds ih =>
    intro es hlen hd he
    cases es with
    | nil => exact absurd hlen (by simp)
    | cons e es =>
      have hlen' : ds.length = es.length := by simpa using hlen
      have hd' : ∀ x ∈ ds, x < 10 := fun x hx => hd x (List.mem_cons_of_mem _ hx)
      have he' : ∀ x ∈ es, x < 10 := fun x hx => he x (List.mem_cons_of_mem _ hx)
      simp only [lexLt, valMSB]
      rcases Nat.lt_trichotomy d e with hde | hde | hde
      · rw [if_pos hde]
        simp only [true_iff]
        have h1 := valMSB_lt ds hd'
        calc d * 10 ^ ds.length + valMSB ds
            < (d + 1) * 10 ^ ds.length := by
              have := valMSB_lt ds hd'
              ring_nf
              omega
          _ ≤ e * 10 ^ ds.length := Nat.mul_le_mul_right _ (by omega)
          _ = e * 10 ^ es.length := by rw [hlen']
          _ ≤ e * 10 ^ es.length + valMSB es := Nat.le_add_right _ _
      · subst hde
        rw [if_neg (by omega), if_neg (by omega)]
        rw [ih es hlen' hd' he', hlen']
        omega
      · rw [if_neg (by omega), if_pos hde]
        simp only [Bool.false_eq_true, false_iff, not_lt]
        have h2 := valMSB_lt es he'
        refine le_of_lt ?_
        calc e * 10 ^ es.length + valMSB es
            < (e + 1) * 10 ^ es.length := by
              ring_nf
              omega
          _ ≤ d * 10 ^ es.length := Nat.mul_le_mul_right _ (by omega)
          _ = d * 10 ^ ds.length := by rw [hlen']
          _ ≤ d * 10 ^ ds.length + valMSB ds := Nat.le_add_right _ _

/-! Manifest chain (casys_storage_fs::manifest). -/

/-- `WalTailMeta` / `WalTail`: identity of one WAL segment file. -/
structure WalTailMeta where
  epoch : Nat
  seq : Nat

/-- A manifest, as stored in `manifest-<version_ts>.json` (its filename is
derived from `version_ts` by `Manifest::filename`). -/
structure Manifest where
  branch : String
  versionTs : Nat
  segments : List String
  walTail : Option WalTailMeta

/-- ASCII bytes of a string literal. -/
def strBytes (s : String) : List Nat := s.toList.map Char.toNat

/-- Most-significant-first decimal digits of `n` (`[0]` for 0). -/
def decDigits (n : Nat) : List Nat :=
  if n = 0 then [0] else (digitsLSB n).reverse

/-- ASCII bytes of the decimal rendering of `n`. -/
def decimalBytes (n : Nat) : List Nat := (decDigits n).map (· + 48)

/-- Bytes of the filename `manifest-<ts>.json`. -/
def manifestName (ts : Nat) : List Nat :=
  strBytes "manifest-" ++ (decimalBytes ts ++ strBytes ".json")

/-- Filename order on manifests: `a` before-or-equal `b` (the comparator of
`list_manifest_paths`' `sort_by`, which compares full filenames). -/
def manifestLe (a b : Manifest) : Prop :=
  lexLt (manifestName b.versionTs) (manifestName a.versionTs) = false

instance manifestLe.decRel : DecidableRel manifestLe := fun _ _ =>
  instDecidableEqBool _ _

/-- `list_manifest_paths` and reading each file back: the branch directory's
manifests (the `dir` list is in unspecified `read_dir` order) sorted by
filename.  Every modelled file is named `manifest-<versionTs>.json`, so the
name filter keeps everything. -/
def listManifestsSorted (dir : List Manifest) : List Manifest :=
  List.insertionSort manifestLe dir

/-- `list_snapshot_timestamps` (FsBackend): read each manifest in filename
order and collect `version_ts`. -/
def listSnapshotTimestamps (dir : List Manifest) : List Nat :=
  (listManifestsSorted dir).map Manifest.versionTs

/-- `latest_manifest`: `paths.pop()` — the last path in filename order. -/
def latestManifest (dir : List Manifest) : Option Manifest :=
  (listManifestsSorted dir).getLast?

/-- `pitr_manifest`: fold over the paths keeping the best `ts ≤ at`
(replacing only when the held `best_ts` is smaller). -/
def pitrManifest (dir : List Manifest) (at_ : Nat) : Option Manifest :=
  (listManifestsSorted dir).foldl
    (fun best m =>
      if m.versionTs ≤ at_ then
        match best with
        | some b => if b.versionTs ≥ m.versionTs then some b else some m
        | none => some m
      else best)
    none

lemma manifestName_lt_iff (k a b : Nat) (ha1 : 10 ^ k ≤ a) (ha2 : a < 10 ^ (k + 1))
    (hb1 : 10 ^ k ≤ b) (hb2 : b < 10 ^ (k + 1)) :
    (lexLt (manifestName a) (manifestName b) = true ↔ a < b) := by
  have hpk : 0 < 10 ^ k := Nat.pos_pow_of_pos _ (by omega)
  have hda : decDigits a = (digitsLSB a).reverse := by
    unfold decDigits
    rw [if_neg (by omega)]
  have hdb : decDigits b = (digitsLSB b).reverse := by
    unfold decDigits
    rw [if_neg (by omega)]
  have hla : (decDigits a).length = k + 1 := by
    rw [hda, List.length_reverse, digitsLSB_length k a ha1 ha2]
  have hlb : (decDigits b).length = k + 1 := by
    rw [hdb, List.length_reverse, digitsLSB_length k b hb1 hb2]
  have hdlta : ∀ d ∈ decDigits a, d < 10 := by
    rw [hda]
    intro d hd
    exact digitsLSB_lt_ten a d (List.mem_reverse.mp hd)
  have hdltb : ∀ d ∈ decDigits b, d < 10 := by
    rw [hdb]
    intro d hd
    exact digitsLSB_lt_ten b d (List.mem_reverse.mp hd)
  unfold manifestName
  rw [lexLt_append_same]
  rw [show decimalBytes a ++ strBytes ".json"
      = (decDigits a).map (· + 48) ++ strBytes ".json" from rfl]
  rw [show decimalBytes b ++ strBytes ".json"
      = (decDigits b).map (· + 48) ++ strBytes ".json" from rfl]
  rw [lexLt_append_same_right _ _ _ (by simp [hla, hlb])]
  rw [lexLt_map_add]
  rw [lexLt_iff_valMSB _ _ (by rw [hla, hlb]) hdlta hdltb]
  rw [hda, hdb, valMSB_reverse, valMSB_reverse, valLSB_digitsLSB, valLSB_digitsLSB]

lemma manifestLe_isTotal : ∀ a b : Manifest, manifestLe a b ∨ manifestLe b a := by
  intro a b
  unfold manifestLe
  by_cases h : lexLt (manifestName b.versionTs) (manifestName a.versionTs) = true
  · right
    exact lexLt_asymm _ _ h
  · left
    exact Bool.not_eq_true _ ▸ Bool.of_not_eq_true h

lemma manifestLe_isTrans : ∀ a b c : Manifest,
    manifestLe a b → manifestLe b c → manifestLe a c := by
  intro a b c hab hbc
  unfold manifestLe at *
  by_cases h : lexLt (manifestName c.versionTs) (manifestName a.versionTs) = true
  · by_cases h2 : lexLt (manifestName b.versionTs) (manifestName c.versionTs) = true
    · have := lexLt_trans _ _ _ h2 h
      rw [this] at hab
      exact absurd hab (by simp)
    · have heq := lexLt_connex _ _ hbc (Bool.of_not_eq_true h2)
      rw [heq] at h
      rw [h] at hab
      exact absurd hab (by simp)
  · exact Bool.of_not_eq_true h

lemma listManifestsSorted_perm (dir : List Manifest) :
    (listManifestsSorted dir).Perm dir :=
  List.perm_insertionSort manifestLe dir

lemma listManifestsSorted_sorted (dir : List Manifest) :
    List.Pairwise manifestLe (listManifestsSorted dir) := by
  haveI : IsTotal Manifest manifestLe := ⟨manifestLe_isTotal⟩
  haveI : IsTrans Manifest manifestLe := ⟨manifestLe_isTrans⟩
  exact List.sorted_insertionSort manifestLe dir

lemma listManifestsSorted_pairwise_lt (dir : List Manifest) (k : Nat)
    (hnodup : (dir.map Manifest.versionTs).Nodup)
    (hrange : ∀ m ∈ dir, 10 ^ k ≤ m.versionTs ∧ m.versionTs < 10 ^ (k + 1)) :
    List.Pairwise (fun a b => a.versionTs < b.versionTs) (listManifestsSorted dir) := by
  have hperm := listManifestsSorted_perm dir
  have hnodup' : (listManifestsSorted dir).Pairwise
      (fun a b => a.versionTs ≠ b.versionTs) := by
    have : ((listManifestsSorted dir).map Manifest.versionTs).Nodup :=
      (hperm.map Manifest.versionTs).nodup_iff.mpr hnodup
    rw [List.Nodup, List.pairwise_map] at this
    exact this
  have hrange' : ∀ m ∈ listManifestsSorted dir,
      10 ^ k ≤ m.versionTs ∧ m.versionTs < 10 ^ (k + 1) :=
    fun m hm => hrange m (hperm.mem_iff.mp hm)
  have hsorted := listManifestsSorted_sorted dir
  have hcomb := hsorted.and hnodup'
  refine hcomb.imp_of_mem ?_
  intro a b ha hb h
  obtain ⟨hle, hne⟩ := h
  obtain ⟨hra1, hra2⟩ := hrange' a ha
  obtain ⟨hrb1, hrb2⟩ := hrange' b hb
  rcases Nat.lt_trichotomy a.versionTs b.versionTs with hlt | heq | hgt
  · exact hlt
  · exact absurd heq hne
  · exfalso
    have := (manifestName_lt_iff k b.versionTs a.versionTs hrb1 hrb2 hra1 hra2).mpr hgt
    unfold manifestLe at hle
    rw [this] at hle
    exact absurd hle (by simp)

lemma pairwise_lt_getLast_max : ∀ (S : List Manifest) (m : Manifest),
    List.Pairwise (fun a b => a.versionTs < b.versionTs) S →
    S.getLast? = some m → ∀ x ∈ S, x.versionTs ≤ m.versionTs := by
  intro S
  induction S with
  | nil =>
    intro m _ h
    cases h
  | cons a S ih =>
    intro m hpw hlast x hx
    cases S with
    | nil =>
      have hma : m = a := by
        simp only [List.getLast?_singleton, Option.some.injEq] at hlast
        exact hlast.symm
      subst hma
      simp only [List.mem_singleton] at hx
      subst hx
      exact Nat.le_refl _
    | cons b S' =>
      rw [List.getLast?_cons_cons] at hlast
      rcases List.mem_cons.mp hx with h | h
      · subst h
        have hm : m ∈ b :: S' := List.mem_of_getLast?_eq_some hlast
        exact Nat.le_of_lt ((List.pairwise_cons.mp hpw).1 m hm)
      · exact ih m (List.pairwise_cons.mp hpw).2 hlast x h

lemma pitr_fold_spec (at_ : Nat) : ∀ (S : List Manifest) (acc : Option Manifest),
    (match S.foldl
        (fun best m =>
          if m.versionTs ≤ at_ then
            match best with
            | some b => if b.versionTs ≥ m.versionTs then some b else some m
            | none => some m
          else best)
        acc with
      | none => acc = none ∧ ∀ m ∈ S, ¬ (m.versionTs ≤ at_)
      | some r => ((r ∈ S ∧ r.versionTs ≤ at_) ∨ acc = some r) ∧
          (∀ m ∈ S, m.versionTs ≤ at_ → m.versionTs ≤ r.versionTs) ∧
          (∀ b, acc = some b → b.versionTs ≤ r.versionTs)) := by
  intro S
  induction S with
  | nil =>
    intro acc
    cases acc with
    | none => exact ⟨rfl, fun m hm => absurd hm (List.not_mem_nil m)⟩
    | some b =>
      refine ⟨Or.inr rfl, fun m hm => absurd hm (List.not_mem_nil m), ?_⟩
      intro x hx
      cases hx
      exact Nat.le_refl _
  | cons m S ih =>
    intro acc
    rw [List.foldl_cons]
    by_cases hel : m.versionTs ≤ at_
    · have hstep : (if m.versionTs ≤ at_ then
          match acc with
          | some b => if b.versionTs ≥ m.versionTs then some b else some m
          | none => some m
          else acc) =
          (match acc with
          | some b => if b.versionTs ≥ m.versionTs then some b else some m
          | none => some m) := if_pos hel
      rw [hstep]
      have hacc' : ∃ m', (match acc with
          | some b => if b.versionTs ≥ m.versionTs then some b else some m
          | none => some m) = some m' ∧
          m.versionTs ≤ m'.versionTs ∧
          (m' = m ∨ acc = some m') ∧
          (∀ b, acc = some b → b.versionTs ≤ m'.versionTs) := by
        cases acc with
        | none =>
          exact ⟨m, rfl, Nat.le_refl _, Or.inl rfl, fun b hb => by cases hb⟩
        | some b =>
          by_cases hge : b.versionTs ≥ m.versionTs
          · refine ⟨b, by simp only [if_pos hge], hge, Or.inr rfl, ?_⟩
            intro b' hb'
            cases hb'
            exact Nat.le_refl _
          · refine ⟨m, by simp only [if_neg hge], Nat.le_refl _, Or.inl rfl, ?_⟩
            intro b' hb'
            cases hb'
            omega
      obtain ⟨m', heq, hmm', hor, hbound⟩ := hacc'
      rw [heq]
      have := ih (some m')
      revert this
      cases hfold : S.foldl
          (fun best m =>
            if m.versionTs ≤ at_ then
              match best with
              | some b => if b.versionTs ≥ m.versionTs then some b else some m
              | none => some m
            else best)
          (some m') with
      | none =>
        intro hspec
        exact absurd hspec.1 (by simp)
      | some r =>
        intro hspec
        obtain ⟨hin, hmax, haccb⟩ := hspec
        refine ⟨?_, ?_, ?_⟩
        · rcases hin with ⟨hrS, hrel⟩ | hacc
          · exact Or.inl ⟨List.mem_cons_of_mem _ hrS, hrel⟩
          · have : m' = r := by
              injection hacc
            subst this
            rcases hor with h | h
            · subst h
              exact Or.inl ⟨List.mem_cons_self _ _, hel⟩
            · exact Or.inr h
        · intro x hx hxel
          rcases List.mem_cons.mp hx with h | h
          · subst h
            calc x.versionTs ≤ m'.versionTs := hmm'
              _ ≤ r.versionTs := haccb m' rfl
          · exact hmax x h hxel
        · intro b hb
          calc b.versionTs ≤ m'.versionTs := hbound b hb
            _ ≤ r.versionTs := haccb m' rfl
    · have hstep : (if m.versionTs ≤ at_ then
          match acc with
          | some b => if b.versionTs ≥ m.versionTs then some b else some m
          | none => some m
          else acc) = acc := if_neg hel
      rw [hstep]
      have := ih acc
      revert this
      cases hfold : S.foldl
          (fun best m =>
            if m.versionTs ≤ at_ then
              match best with
              | some b => if b.versionTs ≥ m.versionTs then some b else some m
              | none => some m
            else best)
          acc with
      | none =>
        intro hspec
        refine ⟨hspec.1, ?_⟩
        intro x hx
        rcases List.mem_cons.mp hx with h | h
        · subst h
          exact hel
        · exact hspec.2 x h
      | some r =>
        intro hspec
        obtain ⟨hin, hmax, haccb⟩ := hspec
        refine ⟨?_, ?_, haccb⟩
        · rcases hin with ⟨hrS, hrel⟩ | hacc
          · exact Or.inl ⟨List.mem_cons_of_mem _ hrS, hrel⟩
          · exact Or.inr hacc
        · intro x hx hxel
          rcases List.mem_cons.mp hx with h | h
          · subst h
            exact absurd hxel hel
          · exact hmax x h hxel

/-- C7 (counterexample): a branch holding manifests with `version_ts` 99 and
100.  `list_manifest_paths` sorts by filename, and lexicographically
`manifest-100.json` < `manifest-99.json`, so `list_snapshot_timestamps`
returns `[100, 99]` — not ascending numeric order — and `latest_manifest`
(`paths.pop()`) returns the manifest with `version_ts` 99, not the maximal
100. -/
theorem c7_manifest_order_counterexample :
    listSnapshotTimestamps
      [{ branch := "b", versionTs := 100, segments := [], walTail := none },
       { branch := "b", versionTs := 99, segments := [], walTail := none }]
      = [100, 99] ∧
    (latestManifest
      [{ branch := "b", versionTs := 100, segments := [], walTail := none },
       { branch := "b", versionTs := 99, segments := [], walTail := none }]).map
      Manifest.versionTs = some 99 := by
  constructor
  · rfl
  · rfl

/-- C7 (amended): when all of a branch's `version_ts` values have the same
number of decimal digits (as epoch-millisecond stamps do), filename order
coincides with numeric order: `list_snapshot_timestamps` is strictly
ascending and `latest_manifest` returns the manifest with the maximal
`version_ts` (`none` exactly for an empty branch, which is not an error).
Without any such hypothesis, `pitr_manifest(at)` returns the manifest with
the greatest `version_ts ≤ at`, or `none` if every manifest is later.  (For
timestamps of differing digit counts the listing and latest-selection follow
filename order instead — the counterexample.) -/
theorem c7_manifest_order_amended :
    (∀ (dir : List Manifest) (k : Nat),
      (dir.map Manifest.versionTs).Nodup →
      (∀ m ∈ dir, 10 ^ k ≤ m.versionTs ∧ m.versionTs < 10 ^ (k + 1)) →
      List.Pairwise (· < ·) (listSnapshotTimestamps dir) ∧
      (latestManifest dir = none ↔ dir = []) ∧
      (∀ m, latestManifest dir = some m →
        m ∈ dir ∧ ∀ m' ∈ dir, m'.versionTs ≤ m.versionTs)) ∧
    (∀ (dir : List Manifest) (at_ : Nat),
      (pitrManifest dir at_ = none ↔ ∀ m ∈ dir, at_ < m.versionTs) ∧
      (∀ r, pitrManifest dir at_ = some r →
        r ∈ dir ∧ r.versionTs ≤ at_ ∧
        ∀ m ∈ dir, m.versionTs ≤ at_ → m.versionTs ≤ r.versionTs)) := by
  constructor
  · intro dir k hnodup hrange
    have hpw := listManifestsSorted_pairwise_lt dir k hnodup hrange
    have hperm := listManifestsSorted_perm dir
    refine ⟨?_, ?_, ?_⟩
    · unfold listSnapshotTimestamps
      rw [List.pairwise_map]
      exact hpw
    · unfold latestManifest
      rw [List.getLast?_eq_none_iff]
      constructor
      · intro h
        rw [h] at hperm
        exact hperm.nil_eq.symm
      · intro h
        subst h
        exact hperm.eq_nil
    · intro m hm
      constructor
      · exact hperm.mem_iff.mp (List.mem_of_getLast?_eq_some hm)
      · intro m' hm'
        exact pairwise_lt_getLast_max _ m hpw hm m' (hperm.mem_iff.mpr hm')
  · intro dir at_
    have hspec := pitr_fold_spec at_ (listManifestsSorted dir) none
    have hperm := listManifestsSorted_perm dir
    constructor
    · constructor
      · intro h
        rw [show pitrManifest dir at_ = (listManifestsSorted dir).foldl
            (fun best m =>
              if m.versionTs ≤ at_ then
                match best with
                | some b => if b.versionTs ≥ m.versionTs then some b else some m
                | none => some m
              else best) none from rfl] at h
        rw [h] at hspec
        intro m hm
        have := hspec.2 m (hperm.mem_iff.mpr hm)
        omega
      · intro hall
        rcases hres : pitrManifest dir at_ with _ | r
        · rfl
        · rw [show pitrManifest dir at_ = (listManifestsSorted dir).foldl
              (fun best m =>
                if m.versionTs ≤ at_ then
                  match best with
                  | some b => if b.versionTs ≥ m.versionTs then some b else some m
                  | none => some m
                else best) none from rfl] at hres
          rw [hres] at hspec
          rcases hspec.1 with ⟨hrS, hrel⟩ | hacc
          · have := hall r (hperm.mem_iff.mp hrS)
            omega
          · exact absurd hacc (by simp)
    · intro r hr
      rw [show pitrManifest dir at_ = (listManifestsSorted dir).foldl
          (fun best m =>
            if m.versionTs ≤ at_ then
              match best with
              | some b => if b.versionTs ≥ m.versionTs then some b else some m
              | none => some m
            else best) none from rfl] at hr
      rw [hr] at hspec
      obtain ⟨hin, hmax, _⟩ := hspec
      rcases hin with ⟨hrS, hrel⟩ | hacc
      · exact ⟨hperm.mem_iff.mp hrS, hrel,
          fun m hm hel => hmax m (hperm.mem_iff.mpr hm) hel⟩
      · exact absurd hacc (by simp)

/-- The branch contents of Scenario F: manifests at timestamps 100, 200,
300. -/
def scenarioF : List Manifest :=
  [{ branch := "b", versionTs := 100, segments := [], walTail := none },
   { branch := "b", versionTs := 200, segments := [], walTail := none },
   { branch := "b", versionTs := 300, segments := [], walTail := none }]

/-- C7 (witness for the amended theorem): Scenario F — manifests at
timestamps 100, 200, 300 (all three-digit), with a PITR query at 250. -/
theorem c7_manifest_order_amended_witness :
    List.Pairwise (· < ·) (listSnapshotTimestamps scenarioF) ∧
    (∀ r, pitrManifest scenarioF 250 = some r →
      r ∈ scenarioF ∧ r.versionTs ≤ 250 ∧
      ∀ m ∈ scenarioF, m.versionTs ≤ 250 → m.versionTs ≤ r.versionTs) := by
  constructor
  · exact (c7_manifest_order_amended.1 scenarioF 2 (by decide) (by decide)).1
  · exact (c7_manifest_order_amended.2 scenarioF 250).2

/-! commit_tx (casys_core::CompositeBackend and casys_storage_fs::FsBackend). -/

/-- One WAL segment file, at record granularity (the byte framing of a file
is covered by `readRecords`/`encodeRecords`). -/
structure WalFile where
  epoch : Nat
  seq : Nat
  records : List (List Nat)

/-- Bytes of the filename `wal-<epoch>-<seq>.wal`. -/
def walFileName (ep sq : Nat) : List Nat :=
  strBytes "wal-" ++ (decimalBytes ep ++ (strBytes "-" ++ (decimalBytes sq ++ strBytes ".wal")))

/-- Filename order on WAL files (`list_wal_paths`' `sort_by`). -/
def walFileLe (a b : WalFile) : Prop :=
  lexLt (walFileName b.epoch b.seq) (walFileName a.epoch a.seq) = false

instance walFileLe.decRel : DecidableRel walFileLe := fun _ _ =>
  instDecidableEqBool _ _

/-- `list_wal_paths`: the directory's WAL files sorted by filename. -/
def listWalSorted (files : List WalFile) : List WalFile :=
  List.insertionSort walFileLe files

/-- `WalWriter::open`: the new segment is `(epoch, last_seq + 1)` of the
last existing file in filename order, or `(0, 0)` when none exist. -/
def walOpenNext (files : List WalFile) : Nat × Nat :=
  match (listWalSorted files).getLast? with
  | some f => (f.epoch, f.seq + 1)
  | none => (0, 0)

/-- One `write_record` call of the writer: the record needs `4 + len`
bytes; if that would exceed the per-segment budget the current file is
flushed and a new segment (`seq += 1`) is created first.  Records are never
split.  State: (current file, bytes written to it, closed files). -/
def walStep (budget : Nat) (st : WalFile × Nat × List WalFile)
    (r : List Nat) : WalFile × Nat × List WalFile :=
  if st.2.1 + (4 + r.length) > budget then
    ({ epoch := st.1.epoch, seq := st.1.seq + 1, records := [r] },
      (4 + r.length, st.2.2 ++ [st.1]))
  else
    ({ st.1 with records := st.1.records ++ [r] },
      (st.2.1 + (4 + r.length), st.2.2))

/-- The `write_record` loop of a freshly opened writer over all records;
returns the files created. -/
def walAppendAll (epoch seq budget : Nat) (records : List (List Nat)) :
    List WalFile :=
  let fin := records.foldl (walStep budget)
    ({ epoch := epoch, seq := seq, records := [] }, (0, []))
  fin.2.2 ++ [fin.1]

/-- `CompositeBackend::commit_tx` (casys_core): append the records through
the `WalSink` if one is present (modelled as an abstract state transformer
returning the new tail), read the previously latest manifest, and publish a
manifest stamped `now` whose `wal_tail` is the sink's new tail, or — when no
sink is present — the previous latest manifest's tail.  Returns the new sink
state, the branch directory after the write, and the published manifest. -/
def compositeCommitTx {σ : Type} (sink : Option (σ → σ × WalTailMeta))
    (walSt : σ) (dir : List Manifest) (branch : String) (now : Nat) :
    σ × List Manifest × Manifest :=
  let res : σ × Option WalTailMeta :=
    match sink with
    | some s => ((s walSt).1, some (s walSt).2)
    | none => (walSt, none)
  let prev := latestManifest dir
  let newMeta : Manifest :=
    { branch := branch, versionTs := now,
      segments := (prev.map Manifest.segments).getD [],
      walTail := res.2.or (prev.bind Manifest.walTail) }
  (res.1, (dir ++ [newMeta], newMeta))

/-- `FsBackend::commit_tx` (casys_storage_fs): open a WAL writer (budget
4 MiB), write all records, then delegate to `snapshot` — which publishes a
manifest carrying the *previous* latest manifest's `wal_tail`, not the tail
just written. -/
def fsCommitTx (walFiles : List WalFile) (dir : List Manifest)
    (branch : String) (records : List (List Nat)) (now : Nat) :
    List WalFile × List Manifest × Manifest :=
  let next := walOpenNext walFiles
  let walFiles' := walFiles ++ walAppendAll next.1 next.2 4194304 records
  let prev := latestManifest dir
  let newMeta : Manifest :=
    { branch := branch, versionTs := now,
      segments := (prev.map Manifest.segments).getD [],
      walTail := prev.bind Manifest.walTail }
  (walFiles', (dir ++ [newMeta], newMeta))

lemma walAppendAll_records (epoch seq budget : Nat) (records : List (List Nat)) :
    ((walAppendAll epoch seq budget records).map WalFile.records).flatten
      = records := by
  have hfold : ∀ (rs : List (List Nat)) (cur : WalFile) (bw : Nat)
      (closed : List WalFile),
      (((rs.foldl (walStep budget) (cur, (bw, closed))).2.2
        ++ [(rs.foldl (walStep budget) (cur, (bw, closed))).1]).map
          WalFile.records).flatten
      = ((closed ++ [cur]).map WalFile.records).flatten ++ rs := by
    intro rs
    induction rs with
    | nil =>
      intro cur bw closed
      simp
    | cons r rs ih =>
      intro cur bw closed
      rw [List.foldl_cons]
      by_cases hb : bw + (4 + r.length) > budget
      · rw [show walStep budget (cur, (bw, closed)) r
            = ({ epoch := cur.epoch, seq := cur.seq + 1, records := [r] },
              (4 + r.length, closed ++ [cur])) from by
            unfold walStep
            rw [if_pos hb]]
        rw [ih { epoch := cur.epoch, seq := cur.seq + 1, records := [r] }
          (4 + r.length) (closed ++ [cur])]
        simp
      · rw [show walStep budget (cur, (bw, closed)) r
            = ({ cur with records := cur.records ++ [r] },
              (bw + (4 + r.length), closed)) from by
            unfold walStep
            rw [if_neg hb]]
        rw [ih { cur with records := cur.records ++ [r] }
          (bw + (4 + r.length)) closed]
        simp
  have hmain := hfold records { epoch := epoch, seq := seq, records := [] } 0 []
  unfold walAppendAll
  rw [hmain]
  simp

/-- C5 (counterexample): `FsBackend::commit_tx` on an empty branch with one
record.  The record is appended to the freshly created WAL segment
`(0, 0)` — the new tail — yet the published manifest carries
`wal_tail = none` (the previous latest manifest's tail, here absent), not
the new tail, because `commit_tx` delegates to `snapshot`. -/
theorem c5_commit_tx_counterexample :
    (fsCommitTx [] [] "b" [[1]] 5).1
      = [{ epoch := 0, seq := 0, records := [[1]] }] ∧
    (fsCommitTx [] [] "b" [[1]] 5).2.2.walTail = none := by
  constructor
  · rfl
  · rfl

/-- C5 (amended): `CompositeBackend::commit_tx` behaves as the claim states:
with a `WalSink` present the published manifest's `wal_tail` is the sink's
new tail, and with no sink it is the previously latest manifest's tail;
the manifest is stamped `now` and keeps the previous segment list.
`FsBackend::commit_tx`, by contrast, appends every record to a fresh WAL
segment (nothing lost to rotation) but publishes — via `snapshot` — a
manifest whose `wal_tail` is the previous latest manifest's tail, never the
tail it just wrote. -/
theorem c5_commit_tx_amended :
    (∀ (σ : Type) (sink : Option (σ → σ × WalTailMeta)) (walSt : σ)
        (dir : List Manifest) (branch : String) (now : Nat),
      (compositeCommitTx sink walSt dir branch now).2.2.walTail
        = (match sink with
           | some s => some (s walSt).2
           | none => (latestManifest dir).bind Manifest.walTail) ∧
      (compositeCommitTx sink walSt dir branch now).2.2.versionTs = now ∧
      (compositeCommitTx sink walSt dir branch now).2.2.segments
        = ((latestManifest dir).map Manifest.segments).getD [] ∧
      (compositeCommitTx sink walSt dir branch now).2.1
        = dir ++ [(compositeCommitTx sink walSt dir branch now).2.2]) ∧
    (∀ (walFiles : List WalFile) (dir : List Manifest) (branch : String)
        (records : List (List Nat)) (now : Nat),
      ((fsCommitTx walFiles dir branch records now).1.drop
          walFiles.length |>.map WalFile.records).flatten = records ∧
      (fsCommitTx walFiles dir branch records now).2.2.walTail
        = (latestManifest dir).bind Manifest.walTail ∧
      (fsCommitTx walFiles dir branch records now).2.2.versionTs = now) := by
  constructor
  · intro σ sink walSt dir branch now
    cases sink with
    | none => exact ⟨rfl, rfl, rfl, rfl⟩
    | some s => exact ⟨rfl, rfl, rfl, rfl⟩
  · intro walFiles dir branch records now
    refine ⟨?_, rfl, rfl⟩
    rw [show (fsCommitTx walFiles dir branch records now).1
        = walFiles ++ walAppendAll (walOpenNext walFiles).1
            (walOpenNext walFiles).2 4194304 records from rfl]
    rw [List.drop_left]
    exact walAppendAll_records _ _ _ records

/-! Executor (casys_engine::exec::executor): tuples, the Expand operator
(single-hop and variable-length), expression and aggregate evaluation. -/

/-- An executor tuple: `HashMap<String, Value>`, modelled as a point-read
map (its iteration order is never observed by the embedded operators). -/
def Tuple : Type := String → Option Value

/-- The empty tuple. -/
def emptyTuple : Tuple := fun _ => none

/-- `HashMap::insert` on a tuple. -/
def tupleInsert (t : Tuple) (k : String) (v : Value) : Tuple :=
  fun k' => if k' = k then some v else t k'

/-- Copy all of `props` into `t` under keys `var.prop`
(the `for (k, v) in …properties { new_tuple.insert(format!("{}.{}", var, k), …) }`
loops). -/
def tupleInsertProps (t : Tuple) (var : String) (props : List (String × Value)) :
    Tuple :=
  props.foldl (fun t kv => tupleInsert t (var ++ "." ++ kv.1) kv.2) t

/-- Edge direction in a pattern (`ast::Direction`). -/
inductive Direction where
  | left
  | right
  | both

/-- Rust `str::split('|')` on the character list (keeps empty pieces). -/
def splitPipe : List Char → List (List Char)
  | [] => [[]]
  | c :: cs =>
    if c = '|' then [] :: splitPipe cs
    else
      match splitPipe cs with
      | [] => [[c]]
      | p :: ps => (c :: p) :: ps

/-- ASCII whitespace (the relevant subset of Rust `char::is_whitespace` for
edge-type strings). -/
def isWS (c : Char) : Bool :=
  c == ' ' || c == '\t' || c == '\n' || c == '\r'

/-- Rust `str::trim`. -/
def trimChars (l : List Char) : List Char :=
  ((l.dropWhile isWS).reverse.dropWhile isWS).reverse

/-- The union edge-type list of an `Expand`: split the optional type string
on `|` and trim each piece; the variable-length path additionally drops
empty pieces (`filter(|s| !s.is_empty())`), the single-hop path keeps
them. -/
def edgeTypesOf (et : Option String) (dropEmpty : Bool) : List (List Char) :=
  match et with
  | none => []
  | some s =>
    let parts := (splitPipe s.toList).map trimChars
    if dropEmpty then parts.filter (fun p => !p.isEmpty) else parts

/-- Neighbour lookup by direction (`Direction::Right` outgoing,
`Direction::Left` incoming, `Direction::Both` outgoing then incoming). -/
def singleHopNeighbors (s : Store) (dir : Direction) (fid : Nat) :
    List (Edge × Node) :=
  match dir with
  | .right => getNeighbors s fid none
  | .left => getNeighborsIncoming s fid none
  | .both => getNeighbors s fid none ++ getNeighborsIncoming s fid none

/-- Neighbours after the union-type `retain` (skipped when the type list is
empty). -/
def neighborsOf (s : Store) (types : List (List Char)) (dir : Direction)
    (fid : Nat) : List (Edge × Node) :=
  let nbrs := singleHopNeighbors s dir fid
  if types.isEmpty then nbrs
  else nbrs.filter (fun c => types.contains c.1.edgeType.toList)

/-- Tuple extension for one accepted single-hop candidate: bind `to_var`,
copy the target node's properties, and — when an edge variable is present —
bind it to the edge id (as `Int`), add `edge_var.edge_type`, and copy the
edge's properties. -/
def extendTupleSingle (t : Tuple) (edgeVar : Option String) (toVar : String)
    (c : Edge × Node) : Tuple :=
  let t1 := tupleInsertProps (tupleInsert t toVar (.nodeId c.2.id)) toVar
    c.2.properties
  match edgeVar with
  | none => t1
  | some ev =>
    tupleInsertProps
      (tupleInsert (tupleInsert t1 ev (.int (Int.ofNat c.1.id)))
        (ev ++ ".edge_type") (.string c.1.edgeType))
      ev c.1.properties

/-- The single-hop `Expand` operator body (executor.rs:507-567), as a
function of its input tuples: for each tuple whose `from_var` is bound to a
node id, each direction/type-filtered candidate is emitted — unless `to_var`
is already bound to a node id *equal* to the candidate's, in which case the
candidate is skipped. -/
def expandSingleHop (s : Store) (fromVar : String) (edgeVar : Option String)
    (toVar : String) (edgeType : Option String) (dir : Direction)
    (tuples : List Tuple) : List Tuple :=
  (tuples.map (fun t =>
    match t fromVar with
    | some (.nodeId fid) =>
      (neighborsOf s (edgeTypesOf edgeType false) dir fid).filterMap (fun c =>
        match t toVar with
        | some (.nodeId ex) =>
          if ex = c.2.id then none
          else some (extendTupleSingle t edgeVar toVar c)
        | _ => some (extendTupleSingle t edgeVar toVar c))
    | _ => [])).flatten

/-- One neighbour examination of the BFS (executor.rs:637-662): skip if
visited; otherwise mark visited, emit when the depth is within
`[min, max]` and the node is not the origin, and enqueue when the next
depth is below `max`. -/
def bfsStep (minD maxD startId : Nat) (d : Nat)
    (st : List (Nat × Nat) × List Nat × List Node) (c : Edge × Node) :
    List (Nat × Nat) × List Nat × List Node :=
  if st.2.1.contains c.2.id then st
  else
    let vis' := st.2.1 ++ [c.2.id]
    let acc' := if minD ≤ d + 1 ∧ d + 1 ≤ maxD ∧ c.2.id ≠ startId then
        st.2.2 ++ [c.2] else st.2.2
    let q' := if d + 1 < maxD then st.1 ++ [(c.2.id, d + 1)] else st.1
    (q', (vis', acc'))

/-- The BFS loop of `traverse_variable_length`.  The `while let Some(…) =
queue.pop_front()` loop is given explicit fuel to stay structurally
recursive; each iteration pops one entry, and an id is enqueued at most
once over the whole run (it is added to the visited set when first seen,
and every enqueued id comes from a store node), so `|nodes| + 2`
iterations always drain the queue. -/
def bfsLoop (s : Store) (types : List (List Char)) (dir : Direction)
    (minD maxD startId : Nat) :
    Nat → List (Nat × Nat) → List Nat → List Node → List Node
  | 0, _, _, acc => acc
  | _ + 1, [], _, acc => acc
  | fuel + 1, (nid, d) :: rest, vis, acc =>
    if d ≥ maxD then bfsLoop s types dir minD maxD startId fuel rest vis acc
    else
      let st := (neighborsOf s types dir nid).foldl
        (bfsStep minD maxD startId d) (rest, (vis, acc))
      bfsLoop s types dir minD maxD startId fuel st.1 st.2.1 st.2.2

/-- `Executor::traverse_variable_length` (executor.rs:575-666): BFS from
`start_id` with a visited set global to the traversal, seeded with the
origin at depth 0. -/
def traverseVarLength (s : Store) (startId : Nat) (types : List (List Char))
    (dir : Direction) (minD maxD : Nat) : List Node :=
  bfsLoop s types dir minD maxD startId (s.nodes.length + 2)
    [(startId, 0)] [startId] []

/-- The variable-length `Expand` operator body (executor.rs:463-506): for
each tuple whose `from_var` is bound, run the traversal, then emit each
reachable node at most once (the `emitted` set), never the origin, and —
when `to_var` is already bound to a node id *equal* to the reachable
node's — skip it; otherwise bind `to_var` and copy the node's properties. -/
def expandVarLength (s : Store) (fromVar toVar : String)
    (edgeType : Option String) (dir : Direction) (minD maxD : Nat)
    (tuples : List Tuple) : List Tuple :=
  (tuples.map (fun t =>
    match t fromVar with
    | some (.nodeId fid) =>
      let reachable := traverseVarLength s fid (edgeTypesOf edgeType true)
        dir minD maxD
      (reachable.foldl
        (fun (st : List Nat × List Tuple) nd =>
          if nd.id = fid then st
          else if st.1.contains nd.id then st
          else
            let emitted' := st.1 ++ [nd.id]
            match t toVar with
            | some (.nodeId ex) =>
              if ex = nd.id then (emitted', st.2)
              else (emitted', st.2 ++
                [tupleInsertProps (tupleInsert t toVar (.nodeId nd.id)) toVar
                  nd.properties])
            | _ => (emitted', st.2 ++
                [tupleInsertProps (tupleInsert t toVar (.nodeId nd.id)) toVar
                  nd.properties]))
        ([], [])).2
    | _ => [])).flatten

lemma tupleInsertProps_apply_ne (var k : String) :
    ∀ (props : List (String × Value)) (t : Tuple),
    (∀ p ∈ props, k ≠ var ++ "." ++ p.1) →
    tupleInsertProps t var props k = t k := by
  intro props
  induction props with
  | nil => intro t _; rfl
  | cons p ps ih =>
    intro t h
    rw [show tupleInsertProps t var (p :: ps)
        = tupleInsertProps (tupleInsert t (var ++ "." ++ p.1) p.2) var ps from rfl]
    rw [ih _ (fun q hq => h q (List.mem_cons_of_mem _ hq))]
    unfold tupleInsert
    rw [if_neg (h p (List.mem_cons_self _ _))]

lemma tupleInsertProps_apply_self (t : Tuple) (var : String)
    (props : List (String × Value)) :
    tupleInsertProps t var props var = t var := by
  apply tupleInsertProps_apply_ne
  intro p _ heq
  have hlen := congrArg String.length heq
  simp only [String.length_append] at hlen
  have : (".").length = 1 := rfl
  omega

lemma extendTupleSingle_toVar (t : Tuple) (toVar : String) (c : Edge × Node) :
    extendTupleSingle t none toVar c toVar = some (.nodeId c.2.id) := by
  unfold extendTupleSingle
  rw [show (match (none : Option String) with
      | none => tupleInsertProps (tupleInsert t toVar (.nodeId c.2.id)) toVar
          c.2.properties
      | some ev => tupleInsertProps
          (tupleInsert (tupleInsert (tupleInsertProps
            (tupleInsert t toVar (.nodeId c.2.id)) toVar c.2.properties) ev
            (.int (Int.ofNat c.1.id))) (ev ++ ".edge_type")
            (.string c.1.edgeType)) ev c.1.properties)
      = tupleInsertProps (tupleInsert t toVar (.nodeId c.2.id)) toVar
          c.2.properties from rfl]
  rw [tupleInsertProps_apply_self]
  unfold tupleInsert
  rw [if_pos rfl]

lemma varlenTuple_toVar (t : Tuple) (toVar : String) (nd : Node) :
    tupleInsertProps (tupleInsert t toVar (.nodeId nd.id)) toVar nd.properties
      toVar = some (.nodeId nd.id) := by
  rw [tupleInsertProps_apply_self]
  unfold tupleInsert
  rw [if_pos rfl]

/-- The concrete graph of the C1 counterexample: nodes 1 and 2, one edge
1 → 2 of type "T" (the store `add_node`/`add_node`/`add_edge` produces). -/
def c1Store : Store :=
  { nodes := [{ id := 1, labels := [], properties := [] },
              { id := 2, labels := [], properties := [] }],
    edges := [{ id := 1, fromNode := 1, toNode := 2, edgeType := "T",
                properties := [] }],
    labelIndex := fun _ => [],
    adjacencyOut := fun k => if k = 1 then [1] else [],
    adjacencyIn := fun k => if k = 2 then [1] else [],
    nextNodeId := 3, nextEdgeId := 2 }

/-- C1 (counterexample): single-hop Expand from node 1 over the edge
1 → 2.  With the incoming tuple binding `a ↦ 1` and `b ↦ 2` — `to_var`
bound to exactly the candidate's node id — the claim requires the candidate
to be kept; the code drops it (`if *existing == to_node.id { continue; }`),
emitting nothing.  With `b ↦ 3` — bound to a *different* id — the claim
requires the candidate to be dropped; the code keeps it and rebinds `b` to
node 2. -/
theorem c1_expand_equijoin_counterexample :
    (expandSingleHop c1Store "a" none "b" none .right
      [tupleInsert (tupleInsert emptyTuple "a" (.nodeId 1)) "b" (.nodeId 2)]).length
      = 0 ∧
    ((neighborsOf c1Store (edgeTypesOf none false) .right 1).map
      (fun c => c.2.id)) = [2] ∧
    ((expandSingleHop c1Store "a" none "b" none .right
      [tupleInsert (tupleInsert emptyTuple "a" (.nodeId 1)) "b" (.nodeId 3)]).map
      (fun u => u "b")) = [some (.nodeId 2)] := by
  refine ⟨rfl, rfl, rfl⟩

/-- C1 (amended): in both Expand variants, when `to_var` is already bound
to a node id `b` in the incoming tuple, a candidate whose node id *equals*
`b` is dropped, and a candidate whose node id *differs* from `b` is kept
and emitted with `to_var` rebound to the candidate's id — deduplication
against the existing binding, not an equijoin.  (Stated for Expands without
an edge variable; the variable-length operator never carries one, and the
edge-variable bindings of the single-hop operator use the separate keys
`ev`, `ev.edge_type`, `ev.prop`.) -/
theorem c1_expand_bound_tovar_amended :
    ∀ (s : Store) (fromVar toVar : String) (edgeType : Option String)
      (dir : Direction) (minD maxD : Nat) (t : Tuple) (fid b : Nat),
      t fromVar = some (.nodeId fid) →
      t toVar = some (.nodeId b) →
      (∀ u ∈ expandSingleHop s fromVar none toVar edgeType dir [t],
          u toVar ≠ some (.nodeId b)) ∧
      (∀ c ∈ neighborsOf s (edgeTypesOf edgeType false) dir fid,
          c.2.id ≠ b →
          ∃ u ∈ expandSingleHop s fromVar none toVar edgeType dir [t],
            u toVar = some (.nodeId c.2.id)) ∧
      (∀ u ∈ expandVarLength s fromVar toVar edgeType dir minD maxD [t],
          u toVar ≠ some (.nodeId b)) ∧
      (∀ n ∈ traverseVarLength s fid (edgeTypesOf edgeType true) dir minD maxD,
          n.id ≠ b → n.id ≠ fid →
          ∃ u ∈ expandVarLength s fromVar toVar edgeType dir minD maxD [t],
            u toVar = some (.nodeId n.id)) := by
  intro s fromVar toVar edgeType dir minD maxD t fid b hfrom hto
  have hsingle : expandSingleHop s fromVar none toVar edgeType dir [t]
      = (neighborsOf s (edgeTypesOf edgeType false) dir fid).filterMap (fun c =>
          if b = c.2.id then none
          else some (extendTupleSingle t none toVar c)) := by
    simp only [expandSingleHop, List.map_cons, List.map_nil, List.flatten_cons,
      List.flatten_nil, List.append_nil, hfrom, hto]
  have hvarlen : expandVarLength s fromVar toVar edgeType dir minD maxD [t]
      = ((traverseVarLength s fid (edgeTypesOf edgeType true) dir minD maxD).foldl
        (fun (st : List Nat × List Tuple) nd =>
          if nd.id = fid then st
          else if st.1.contains nd.id then st
          else
            let emitted' := st.1 ++ [nd.id]
            if b = nd.id then (emitted', st.2)
            else (emitted', st.2 ++
              [tupleInsertProps (tupleInsert t toVar (.nodeId nd.id)) toVar
                nd.properties]))
        ([], [])).2 := by
    simp only [expandVarLength, List.map_cons, List.map_nil, List.flatten_cons,
      List.flatten_nil, List.append_nil, hfrom, hto]
  refine ⟨?_, ?_, ?_, ?_⟩
  · intro u hu
    rw [hsingle] at hu
    rcases List.mem_filterMap.mp hu with ⟨c, _, hc⟩
    by_cases hb : b = c.2.id
    · rw [if_pos hb] at hc
      cases hc
    · rw [if_neg hb] at hc
      injection hc with hc
      subst hc
      rw [extendTupleSingle_toVar]
      intro heq
      injection heq with heq
      exact hb (by injection heq with h; omega)
  · intro c hc hne
    rw [hsingle]
    refine ⟨extendTupleSingle t none toVar c, ?_, extendTupleSingle_toVar t toVar c⟩
    exact List.mem_filterMap.mpr ⟨c, hc, by rw [if_neg (fun h => hne h.symm)]⟩
  · intro u hu
    rw [hvarlen] at hu
    have hfold : ∀ (reach : List Node) (em : List Nat) (out : List Tuple),
        (∀ v ∈ out, v toVar ≠ some (.nodeId b)) →
        ∀ v ∈ (reach.foldl
          (fun (st : List Nat × List Tuple) nd =>
            if nd.id = fid then st
            else if st.1.contains nd.id then st
            else
              let emitted' := st.1 ++ [nd.id]
              if b = nd.id then (emitted', st.2)
              else (emitted', st.2 ++
                [tupleInsertProps (tupleInsert t toVar (.nodeId nd.id)) toVar
                  nd.properties]))
          (em, out)).2, v toVar ≠ some (.nodeId b) := by
      intro reach
      induction reach with
      | nil => intro em out h; exact h
      | cons nd reach ih =>
        intro em out h
        rw [List.foldl_cons]
        by_cases h1 : nd.id = fid
        · rw [if_pos h1]
          exact ih em out h
        · rw [if_neg h1]
          by_cases h2 : em.contains nd.id
          · rw [if_pos h2]
            exact ih em out h
          · rw [if_neg h2]
            by_cases h3 : b = nd.id
            · rw [if_pos h3]
              exact ih _ out h
            · rw [if_neg h3]
              refine ih _ _ ?_
              intro v hv
              rcases List.mem_append.mp hv with h' | h'
              · exact h v h'
              · rcases List.mem_singleton.mp h' with rfl
                rw [varlenTuple_toVar]
                intro heq
                injection heq with heq
                exact h3 (by injection heq with hh; omega)
    exact hfold _ [] [] (fun v hv => absurd hv (List.not_mem_nil v)) u hu
  · intro n hn hnb hnfid
    rw [hvarlen]
    have hfold : ∀ (reach : List Node) (em : List Nat) (out : List Tuple),
        (∀ j ∈ em, j ≠ fid → j ≠ b → ∃ u ∈ out, u toVar = some (.nodeId j)) →
        (∀ u ∈ out, u ∈ (reach.foldl
          (fun (st : List Nat × List Tuple) nd =>
            if nd.id = fid then st
            else if st.1.contains nd.id then st
            else
              let emitted' := st.1 ++ [nd.id]
              if b = nd.id then (emitted', st.2)
              else (emitted', st.2 ++
                [tupleInsertProps (tupleInsert t toVar (.nodeId nd.id)) toVar
                  nd.properties]))
          (em, out)).2) ∧
        (∀ j ∈ em, j ∈ (reach.foldl
          (fun (st : List Nat × List Tuple) nd =>
            if nd.id = fid then st
            else if st.1.contains nd.id then st
            else
              let emitted' := st.1 ++ [nd.id]
              if b = nd.id then (emitted', st.2)
              else (emitted', st.2 ++
                [tupleInsertProps (tupleInsert t toVar (.nodeId nd.id)) toVar
                  nd.properties]))
          (em, out)).1) ∧
        (∀ nd ∈ reach, nd.id ≠ fid → nd.id ≠ b →
          ∃ u ∈ (reach.foldl
          (fun (st : List Nat × List Tuple) nd =>
            if nd.id = fid then st
            else if st.1.contains nd.id then st
            else
              let emitted' := st.1 ++ [nd.id]
              if b = nd.id then (emitted', st.2)
              else (emitted', st.2 ++
                [tupleInsertProps (tupleInsert t toVar (.nodeId nd.id)) toVar
                  nd.properties]))
          (em, out)).2, u toVar = some (.nodeId nd.id)) := by
      intro reach
      induction reach with
      | nil =>
        intro em out hinv
        exact ⟨fun u hu => hu, fun j hj => hj,
          fun nd hnd => absurd hnd (List.not_mem_nil nd)⟩
      | cons nd reach ih =>
        intro em out hinv
        rw [List.foldl_cons]
        by_cases h1 : nd.id = fid
        · obtain ⟨o1, o2, o3⟩ := ih em out hinv
          rw [if_pos h1]
          refine ⟨o1, o2, ?_⟩
          intro x hx hxfid hxb
          rcases List.mem_cons.mp hx with h' | h'
          · subst h'
            exact absurd h1 hxfid
          · exact o3 x h' hxfid hxb
        · rw [if_neg h1]
          by_cases h2 : em.contains nd.id
          · obtain ⟨o1, o2, o3⟩ := ih em out hinv
            rw [if_pos h2]
            refine ⟨o1, o2, ?_⟩
            intro x hx hxfid hxb
            rcases List.mem_cons.mp hx with h' | h'
            · subst h'
              by_cases hxb' : x.id = b
              · exact absurd hxb' hxb
              · obtain ⟨u, hu, hub⟩ := hinv x.id (List.mem_of_elem_eq_true h2)
                  hxfid hxb
                exact ⟨u, o1 u hu, hub⟩
            · exact o3 x h' hxfid hxb
          · rw [if_neg h2]
            by_cases h3 : b = nd.id
            · rw [if_pos h3]
              have hinv' : ∀ j ∈ em ++ [nd.id], j ≠ fid → j ≠ b →
                  ∃ u ∈ out, u toVar = some (.nodeId j) := by
                intro j hj hjfid hjb
                rcases List.mem_append.mp hj with h' | h'
                · exact hinv j h' hjfid hjb
                · rcases List.mem_singleton.mp h' with rfl
                  exact absurd h3.symm hjb
              obtain ⟨o1, o2, o3⟩ := ih (em ++ [nd.id]) out hinv'
              refine ⟨o1, fun j hj => o2 j (List.mem_append_left _ hj), ?_⟩
              intro x hx hxfid hxb
              rcases List.mem_cons.mp hx with h' | h'
              · subst h'
                exact absurd h3.symm hxb
              · exact o3 x h' hxfid hxb
            · rw [if_neg h3]
              have hinv' : ∀ j ∈ em ++ [nd.id], j ≠ fid → j ≠ b →
                  ∃ u ∈ out ++
                    [tupleInsertProps (tupleInsert t toVar (.nodeId nd.id))
                      toVar nd.properties], u toVar = some (.nodeId j) := by
                intro j hj hjfid hjb
                rcases List.mem_append.mp hj with h' | h'
                · obtain ⟨u, hu, hub⟩ := hinv j h' hjfid hjb
                  exact ⟨u, List.mem_append_left _ hu, hub⟩
                · rcases List.mem_singleton.mp h' with rfl
                  refine ⟨_, List.mem_append_right _ (List.mem_singleton.mpr rfl),
                    varlenTuple_toVar t toVar nd⟩
              obtain ⟨o1, o2, o3⟩ := ih (em ++ [nd.id]) _ hinv'
              refine ⟨fun u hu => o1 u (List.mem_append_left _ hu),
                fun j hj => o2 j (List.mem_append_left _ hj), ?_⟩
              intro x hx hxfid hxb
              rcases List.mem_cons.mp hx with h' | h'
              · subst h'
                obtain ⟨u, hu, hub⟩ := hinv' x.id
                  (List.mem_append_right _ (List.mem_singleton.mpr rfl)) hxfid hxb
                exact ⟨u, o1 u hu, hub⟩
              · exact o3 x h' hxfid hxb
    obtain ⟨_, _, o3⟩ := hfold
      (traverseVarLength s fid (edgeTypesOf edgeType true) dir minD maxD) [] []
      (fun j hj => absurd hj (List.not_mem_nil j))
    exact o3 n hn hnfid hnb

/-- The single edge/target candidate of the C1 graph. -/
def c1Cand : Edge × Node :=
  ({ id := 1, fromNode := 1, toNode := 2, edgeType := "T", properties := [] },
   { id := 2, labels := [], properties := [] })

/-- C1 (witness for the amended theorem): the counterexample graph with
`to_var` bound to node 3 — exactly one tuple emitted, rebinding `b` to
node 2. -/
theorem c1_expand_bound_tovar_amended_witness :
    ∃ u ∈ expandSingleHop c1Store "a" none "b" none .right
      [tupleInsert (tupleInsert emptyTuple "a" (.nodeId 1)) "b" (.nodeId 3)],
      u "b" = some (.nodeId 2) := by
  have h := (c1_expand_bound_tovar_amended c1Store "a" "b" none .right 0 0
    (tupleInsert (tupleInsert emptyTuple "a" (.nodeId 1)) "b" (.nodeId 3))
    1 3 rfl rfl).2.1
  have hc : c1Cand ∈ neighborsOf c1Store (edgeTypesOf none false) .right 1 := by
    rw [show neighborsOf c1Store (edgeTypesOf none false) .right 1
      = [c1Cand] from rfl]
    exact List.mem_singleton.mpr rfl
  exact h c1Cand hc (by decide)

/-- Reachability in exactly `d` hops along the direction/type-filtered
neighbour relation the traversal expands (the graph the BFS walks). -/
inductive ReachN (s : Store) (types : List (List Char)) (dir : Direction)
    (start : Nat) : Nat → Nat → Prop
  | refl : ReachN s types dir start 0 start
  | step {d u : Nat} {c : Edge × Node} : ReachN s types dir start d u →
      c ∈ neighborsOf s types dir u → ReachN s types dir start (d + 1) c.2.id

/-- `d` is the shortest hop distance from `start` to `v`. -/
def IsDistance (s : Store) (types : List (List Char)) (dir : Direction)
    (start d v : Nat) : Prop :=
  ReachN s types dir start d v ∧ ∀ e, ReachN s types dir start e v → d ≤ e

/-- The BFS loop invariant of `traverse_variable_length`: the visited set
is duplicate-free and contains the origin and every queued id; queued ids
are distinct, carried at their true shortest distance, depth-sorted and
spread over at most two consecutive depths; every visited node is pending
in the queue, cut off by `max_depth`, or fully expanded; and the emitted
accumulator is duplicate-free, visited, origin-free and emitted at a
shortest distance within `[min_depth, max_depth]`. -/
structure BfsInv (s : Store) (types : List (List Char)) (dir : Direction)
    (start minD maxD : Nat) (q : List (Nat × Nat)) (vis : List Nat)
    (acc : List Node) : Prop where
  visNodup : vis.Nodup
  startVis : start ∈ vis
  qVis : ∀ p ∈ q, p.1 ∈ vis
  qIdsNodup : (q.map Prod.fst).Nodup
  qDist : ∀ p ∈ q, IsDistance s types dir start p.2 p.1
  qSorted : (q.map Prod.snd).Pairwise (· ≤ ·)
  qSpread : ∀ p ∈ q, ∀ p' ∈ q, p.2 ≤ p'.2 + 1
  visClosed : ∀ w ∈ vis, ∃ dw, IsDistance s types dir start dw w ∧
    ((w, dw) ∈ q ∨ maxD ≤ dw ∨
      ∀ c ∈ neighborsOf s types dir w, c.2.id ∈ vis)
  accVis : ∀ n ∈ acc, n.id ∈ vis
  accIdsNodup : (acc.map Node.id).Nodup
  accSound : ∀ n ∈ acc, n.id ≠ start ∧
    ∃ dn, IsDistance s types dir start dn n.id ∧ minD ≤ dn ∧ dn ≤ maxD

/-- A node first discovered while expanding a queue head of depth `d` is
discovered at its shortest distance `d + 1`: any shorter path would end at
an already-visited node, by the closedness of the visited set. -/
lemma discovered_isDistance (s : Store) (types : List (List Char))
    (dir : Direction) (start maxD d u : Nat)
    (rest : List (Nat × Nat)) (vis0 dv : List Nat)
    (hstart : start ∈ vis0)
    (hclosed : ∀ w ∈ vis0, ∃ dw, IsDistance s types dir start dw w ∧
      ((w, dw) ∈ (u, d) :: rest ∨ maxD ≤ dw ∨
        ∀ c ∈ neighborsOf s types dir w, c.2.id ∈ vis0))
    (hrest : ∀ p ∈ rest, d ≤ p.2)
    (hdmax : d < maxD)
    (hdv : ∀ j ∈ dv, IsDistance s types dir start (d + 1) j)
    (v : Nat) (hre : ReachN s types dir start (d + 1) v)
    (hv0 : v ∉ vis0) (hvd : v ∉ dv) :
    IsDistance s types dir start (d + 1) v := by
  have key : ∀ e, e ≤ d → ∀ w, ReachN s types dir start e w →
      w ∈ vis0 ∨ w ∈ dv := by
    intro e
    induction e with
    | zero =>
      intro _ w hw
      cases hw with
      | refl => exact .inl hstart
    | succ e ih =>
      intro he w hw
      cases hw with
      | step hw' hc =>
        rename_i w' c
        rcases ih (by omega) w' hw' with hmem | hmem
        · obtain ⟨dw, hdw, alt⟩ := hclosed w' hmem
          have hdwe : dw ≤ e := hdw.2 e hw'
          rcases alt with hq | hge | hall
          · rcases List.mem_cons.mp hq with heq | hr
            · have h1 : dw = d := by
                injection heq with h1 h2
              omega
            · have := hrest _ hr
              omega
          · omega
          · exact .inl (hall c hc)
        · have := (hdv w' hmem).2 e hw'
          omega
  refine ⟨hre, ?_⟩
  intro e he
  by_contra hlt
  rcases key e (by omega) v he with h | h
  · exact hv0 h
  · exact hvd h

/-- Folding `bfsStep` over (a suffix of) the neighbour list of the popped
head `(u, d)` appends some block `dv'` of newly discovered ids to the
visited set, their depth-`d+1` queue entries (when `d+1 < max`) to the
queue, and their in-range, non-origin nodes to the accumulator — each new
id discovered at its shortest distance `d + 1`, and every processed
neighbour visited afterwards. -/
lemma bfsFold_spec (s : Store) (types : List (List Char)) (dir : Direction)
    (minD maxD start d u : Nat)
    (rest : List (Nat × Nat)) (vis0 : List Nat) (acc0 : List Node)
    (hstart : start ∈ vis0)
    (hclosed : ∀ w ∈ vis0, ∃ dw, IsDistance s types dir start dw w ∧
      ((w, dw) ∈ (u, d) :: rest ∨ maxD ≤ dw ∨
        ∀ c ∈ neighborsOf s types dir w, c.2.id ∈ vis0))
    (hrest : ∀ p ∈ rest, d ≤ p.2)
    (hdmax : d < maxD)
    (hdu : ReachN s types dir start d u) :
    ∀ (L : List (Edge × Node)), (∀ c ∈ L, c ∈ neighborsOf s types dir u) →
    ∀ (dv : List Nat) (dq : List (Nat × Nat)) (da : List Node),
    dv.Nodup → (∀ j ∈ dv, j ∉ vis0) →
    (∀ j ∈ dv, IsDistance s types dir start (d + 1) j) →
    (if d + 1 < maxD then dq = dv.map (fun j => (j, d + 1))
      else dq = ([] : List (Nat × Nat))) →
    (∀ n ∈ da, n.id ∈ dv ∧ n.id ≠ start ∧ minD ≤ d + 1 ∧ d + 1 ≤ maxD) →
    (da.map Node.id).Nodup →
    ∃ dv' dq' da',
      L.foldl (bfsStep minD maxD start d)
        (rest ++ dq, (vis0 ++ dv, acc0 ++ da))
        = (rest ++ dq', (vis0 ++ dv', acc0 ++ da')) ∧
      dv'.Nodup ∧ (∀ j ∈ dv', j ∉ vis0) ∧
      (∀ j ∈ dv', IsDistance s types dir start (d + 1) j) ∧
      (if d + 1 < maxD then dq' = dv'.map (fun j => (j, d + 1))
        else dq' = ([] : List (Nat × Nat))) ∧
      (∀ n ∈ da', n.id ∈ dv' ∧ n.id ≠ start ∧ minD ≤ d + 1 ∧ d + 1 ≤ maxD) ∧
      (da'.map Node.id).Nodup ∧
      (∀ j ∈ dv, j ∈ dv') ∧
      (∀ c ∈ L, c.2.id ∈ vis0 ++ dv') := by
  intro L
  induction L with
  | nil =>
    intro _ dv dq da h1 h2 h3 h4 h5 h6
    exact ⟨dv, dq, da, rfl, h1, h2, h3, h4, h5, h6, fun j hj => hj,
      fun c hc => absurd hc (List.not_mem_nil c)⟩
  | cons c L ih =>
    intro hL dv dq da h1 h2 h3 h4 h5 h6
    rw [List.foldl_cons]
    by_cases hvis : c.2.id ∈ vis0 ++ dv
    · have hcond : (vis0 ++ dv).contains c.2.id = true :=
        List.elem_eq_true_of_mem hvis
      have hstep : bfsStep minD maxD start d
          (rest ++ dq, (vis0 ++ dv, acc0 ++ da)) c
          = (rest ++ dq, (vis0 ++ dv, acc0 ++ da)) := by
        unfold bfsStep
        rw [show ((rest ++ dq, (vis0 ++ dv, acc0 ++ da)) :
          List (Nat × Nat) × List Nat × List Node).2.1 = vis0 ++ dv from rfl,
          hcond]
        rfl
      rw [hstep]
      obtain ⟨dv', dq', da', heq, o1, o2, o3, o4, o5, o6, omono, ocov⟩ :=
        ih (fun c' hc' => hL c' (List.mem_cons_of_mem _ hc'))
          dv dq da h1 h2 h3 h4 h5 h6
      refine ⟨dv', dq', da', heq, o1, o2, o3, o4, o5, o6, omono, ?_⟩
      intro c' hc'
      rcases List.mem_cons.mp hc' with rfl | hc'
      · rcases List.mem_append.mp hvis with h' | h'
        · exact List.mem_append_left _ h'
        · exact List.mem_append_right _ (omono _ h')
      · exact ocov c' hc'
    · have hnv0 : c.2.id ∉ vis0 := fun h => hvis (List.mem_append_left _ h)
      have hnd : c.2.id ∉ dv := fun h => hvis (List.mem_append_right _ h)
      have hcond : (vis0 ++ dv).contains c.2.id = false := by
        rcases h : (vis0 ++ dv).contains c.2.id with _ | _
        · rfl
        · exact absurd (List.mem_of_elem_eq_true h) hvis
      have hdist : IsDistance s types dir start (d + 1) c.2.id :=
        discovered_isDistance s types dir start maxD d u rest vis0 dv
          hstart hclosed hrest hdmax h3 c.2.id
          (ReachN.step hdu (hL c (List.mem_cons_self _ _))) hnv0 hnd
      have h1' : (dv ++ [c.2.id]).Nodup :=
        (List.nodup_append).mpr ⟨h1, List.nodup_singleton _,
          fun a ha hb => hnd ((List.mem_singleton.mp hb) ▸ ha)⟩
      have h2' : ∀ j ∈ dv ++ [c.2.id], j ∉ vis0 := by
        intro j hj
        rcases List.mem_append.mp hj with h' | h'
        · exact h2 j h'
        · exact (List.mem_singleton.mp h') ▸ hnv0
      have h3' : ∀ j ∈ dv ++ [c.2.id],
          IsDistance s types dir start (d + 1) j := by
        intro j hj
        rcases List.mem_append.mp hj with h' | h'
        · exact h3 j h'
        · exact (List.mem_singleton.mp h') ▸ hdist
      by_cases hemit : minD ≤ d + 1 ∧ d + 1 ≤ maxD ∧ c.2.id ≠ start
      · have h5' : ∀ n ∈ da ++ [c.2], n.id ∈ dv ++ [c.2.id] ∧ n.id ≠ start ∧
            minD ≤ d + 1 ∧ d + 1 ≤ maxD := by
          intro n hn
          rcases List.mem_append.mp hn with h' | h'
          · obtain ⟨ha, hb, hc', hd'⟩ := h5 n h'
            exact ⟨List.mem_append_left _ ha, hb, hc', hd'⟩
          · rcases List.mem_singleton.mp h' with rfl
            exact ⟨List.mem_append_right _ (List.mem_singleton.mpr rfl),
              hemit.2.2, hemit.1, hemit.2.1⟩
        have h6' : ((da ++ [c.2]).map Node.id).Nodup := by
          rw [List.map_append]
          refine (List.nodup_append).mpr ⟨h6, List.nodup_singleton _, ?_⟩
          intro a ha hb
          rcases List.mem_map.mp ha with ⟨n, hn, rfl⟩
          have := (h5 n hn).1
          rw [List.map_singleton, List.mem_singleton] at hb
          exact hnd (hb ▸ this)
        by_cases henq : d + 1 < maxD
        · have hdq : dq = dv.map (fun j => (j, d + 1)) := by
            rw [if_pos henq] at h4; exact h4
          have h4' : if d + 1 < maxD
              then dq ++ [(c.2.id, d + 1)]
                = (dv ++ [c.2.id]).map (fun j => (j, d + 1))
              else dq ++ [(c.2.id, d + 1)] = ([] : List (Nat × Nat)) := by
            rw [if_pos henq, hdq, List.map_append]
            rfl
          have hstep : bfsStep minD maxD start d
              (rest ++ dq, (vis0 ++ dv, acc0 ++ da)) c
              = (rest ++ (dq ++ [(c.2.id, d + 1)]),
                 (vis0 ++ (dv ++ [c.2.id]), acc0 ++ (da ++ [c.2]))) := by
            unfold bfsStep
            rw [show ((rest ++ dq, (vis0 ++ dv, acc0 ++ da)) :
              List (Nat × Nat) × List Nat × List Node).2.1 = vis0 ++ dv
              from rfl, hcond]
            show (if d + 1 < maxD
                then (rest ++ dq) ++ [(c.2.id, d + 1)] else rest ++ dq,
              ((vis0 ++ dv) ++ [c.2.id],
                if minD ≤ d + 1 ∧ d + 1 ≤ maxD ∧ c.2.id ≠ start
                then (acc0 ++ da) ++ [c.2] else acc0 ++ da)) = _
            rw [if_pos henq, if_pos hemit, List.append_assoc,
              List.append_assoc, List.append_assoc]
          rw [hstep]
          obtain ⟨dv', dq', da', heq, o1, o2, o3, o4, o5, o6, omono, ocov⟩ :=
            ih (fun c' hc' => hL c' (List.mem_cons_of_mem _ hc'))
              (dv ++ [c.2.id]) (dq ++ [(c.2.id, d + 1)]) (da ++ [c.2])
              h1' h2' h3' h4' h5' h6'
          refine ⟨dv', dq', da', heq, o1, o2, o3, o4, o5, o6, ?_, ?_⟩
          · intro j hj
            exact omono j (List.mem_append_left _ hj)
          · intro c' hc'
            rcases List.mem_cons.mp hc' with rfl | hc'
            · exact List.mem_append_right _ (omono _
                (List.mem_append_right _ (List.mem_singleton.mpr rfl)))
            · exact ocov c' hc'
        · have hdq : dq = ([] : List (Nat × Nat)) := by
            rw [if_neg henq] at h4; exact h4
          have h4' : if d + 1 < maxD
              then dq = (dv ++ [c.2.id]).map (fun j => (j, d + 1))
              else dq = ([] : List (Nat × Nat)) := by
            rw [if_neg henq]; exact hdq
          have hstep : bfsStep minD maxD start d
              (rest ++ dq, (vis0 ++ dv, acc0 ++ da)) c
              = (rest ++ dq,
                 (vis0 ++ (dv ++ [c.2.id]), acc0 ++ (da ++ [c.2]))) := by
            unfold bfsStep
            rw [show ((rest ++ dq, (vis0 ++ dv, acc0 ++ da)) :
              List (Nat × Nat) × List Nat × List Node).2.1 = vis0 ++ dv
              from rfl, hcond]
            show (if d + 1 < maxD
                then (rest ++ dq) ++ [(c.2.id, d + 1)] else rest ++ dq,
              ((vis0 ++ dv) ++ [c.2.id],
                if minD ≤ d + 1 ∧ d + 1 ≤ maxD ∧ c.2.id ≠ start
                then (acc0 ++ da) ++ [c.2] else acc0 ++ da)) = _
            rw [if_neg henq, if_pos hemit, List.append_assoc,
              List.append_assoc]
          rw [hstep]
          obtain ⟨dv', dq', da', heq, o1, o2, o3, o4, o5, o6, omono, ocov⟩ :=
            ih (fun c' hc' => hL c' (List.mem_cons_of_mem _ hc'))
              (dv ++ [c.2.id]) dq (da ++ [c.2])
              h1' h2' h3' h4' h5' h6'
          refine ⟨dv', dq', da', heq, o1, o2, o3, o4, o5, o6, ?_, ?_⟩
          · intro j hj
            exact omono j (List.mem_append_left _ hj)
          · intro c' hc'
            rcases List.mem_cons.mp hc' with rfl | hc'
            · exact List.mem_append_right _ (omono _
                (List.mem_append_right _ (List.mem_singleton.mpr rfl)))
            · exact ocov c' hc'
      · have h5' : ∀ n ∈ da, n.id ∈ dv ++ [c.2.id] ∧ n.id ≠ start ∧
            minD ≤ d + 1 ∧ d + 1 ≤ maxD := by
          intro n hn
          obtain ⟨ha, hb, hc', hd'⟩ := h5 n hn
          exact ⟨List.mem_append_left _ ha, hb, hc', hd'⟩
        by_cases henq : d + 1 < maxD
        · have hdq : dq = dv.map (fun j => (j, d + 1)) := by
            rw [if_pos henq] at h4; exact h4
          have h4' : if d + 1 < maxD
              then dq ++ [(c.2.id, d + 1)]
                = (dv ++ [c.2.id]).map (fun j => (j, d + 1))
              else dq ++ [(c.2.id, d + 1)] = ([] : List (Nat × Nat)) := by
            rw [if_pos henq, hdq, List.map_append]
            rfl
          have hstep : bfsStep minD maxD start d
              (rest ++ dq, (vis0 ++ dv, acc0 ++ da)) c
              = (rest ++ (dq ++ [(c.2.id, d + 1)]),
                 (vis0 ++ (dv ++ [c.2.id]), acc0 ++ da)) := by
            unfold bfsStep
            rw [show ((rest ++ dq, (vis0 ++ dv, acc0 ++ da)) :
              List (Nat × Nat) × List Nat × List Node).2.1 = vis0 ++ dv
              from rfl, hcond]
            show (if d + 1 < maxD
                then (rest ++ dq) ++ [(c.2.id, d + 1)] else rest ++ dq,
              ((vis0 ++ dv) ++ [c.2.id],
                if minD ≤ d + 1 ∧ d + 1 ≤ maxD ∧ c.2.id ≠ start
                then (acc0 ++ da) ++ [c.2] else acc0 ++ da)) = _
            rw [if_pos henq, if_neg hemit, List.append_assoc,
              List.append_assoc]
          rw [hstep]
          obtain ⟨dv', dq', da', heq, o1, o2, o3, o4, o5, o6, omono, ocov⟩ :=
            ih (fun c' hc' => hL c' (List.mem_cons_of_mem _ hc'))
              (dv ++ [c.2.id]) (dq ++ [(c.2.id, d + 1)]) da
              h1' h2' h3' h4' h5' h6
          refine ⟨dv', dq', da', heq, o1, o2, o3, o4, o5, o6, ?_, ?_⟩
          · intro j hj
            exact omono j (List.mem_append_left _ hj)
          · intro c' hc'
            rcases List.mem_cons.mp hc' with rfl | hc'
            · exact List.mem_append_right _ (omono _
                (List.mem_append_right _ (List.mem_singleton.mpr rfl)))
            · exact ocov c' hc'
        · have hdq : dq = ([] : List (Nat × Nat)) := by
            rw [if_neg henq] at h4; exact h4
          have h4' : if d + 1 < maxD
              then dq = (dv ++ [c.2.id]).map (fun j => (j, d + 1))
              else dq = ([] : List (Nat × Nat)) := by
            rw [if_neg henq]; exact hdq
          have hstep : bfsStep minD maxD start d
              (rest ++ dq, (vis0 ++ dv, acc0 ++ da)) c
              = (rest ++ dq, (vis0 ++ (dv ++ [c.2.id]), acc0 ++ da)) := by
            unfold bfsStep
            rw [show ((rest ++ dq, (vis0 ++ dv, acc0 ++ da)) :
              List (Nat × Nat) × List Nat × List Node).2.1 = vis0 ++ dv
              from rfl, hcond]
            show (if d + 1 < maxD
                then (rest ++ dq) ++ [(c.2.id, d + 1)] else rest ++ dq,
              ((vis0 ++ dv) ++ [c.2.id],
                if minD ≤ d + 1 ∧ d + 1 ≤ maxD ∧ c.2.id ≠ start
                then (acc0 ++ da) ++ [c.2] else acc0 ++ da)) = _
            rw [if_neg henq, if_neg hemit, List.append_assoc]
          rw [hstep]
          obtain ⟨dv', dq', da', heq, o1, o2, o3, o4, o5, o6, omono, ocov⟩ :=
            ih (fun c' hc' => hL c' (List.mem_cons_of_mem _ hc'))
              (dv ++ [c.2.id]) dq da
              h1' h2' h3' h4' h5' h6
          refine ⟨dv', dq', da', heq, o1, o2, o3, o4, o5, o6, ?_, ?_⟩
          · intro j hj
            exact omono j (List.mem_append_left _ hj)
          · intro c' hc'
            rcases List.mem_cons.mp hc' with rfl | hc'
            · exact List.mem_append_right _ (omono _
                (List.mem_append_right _ (List.mem_singleton.mpr rfl)))
            · exact ocov c' hc'

lemma pairwise_le_of_all_eq (c : Nat) : ∀ (l : List Nat),
    (∀ x ∈ l, x = c) → l.Pairwise (· ≤ ·) := by
  intro l
  induction l with
  | nil => intro _; exact List.Pairwise.nil
  | cons a l ih =>
    intro h
    refine List.Pairwise.cons ?_ (ih fun x hx => h x (List.mem_cons_of_mem _ hx))
    intro b hb
    rw [h a (List.mem_cons_self _ _), h b (List.mem_cons_of_mem _ hb)]

lemma reachN_zero (s : Store) (types : List (List Char)) (dir : Direction)
    (start v : Nat) : ReachN s types dir start 0 v → v = start := by
  intro h
  cases h
  rfl

/-- The BFS invariant is preserved through the whole loop, whatever the
fuel: the returned accumulator is the `acc` component of an invariant
state. -/
lemma bfsLoop_inv (s : Store) (types : List (List Char)) (dir : Direction)
    (minD maxD start : Nat) :
    ∀ (fuel : Nat) (q : List (Nat × Nat)) (vis : List Nat) (acc : List Node),
    BfsInv s types dir start minD maxD q vis acc →
    ∃ q' vis', BfsInv s types dir start minD maxD q' vis'
      (bfsLoop s types dir minD maxD start fuel q vis acc) := by
  intro fuel
  induction fuel with
  | zero =>
    intro q vis acc h
    exact ⟨q, vis, h⟩
  | succ fuel ih =>
    intro q vis acc h
    rcases q with _ | ⟨⟨nid, dd⟩, rest⟩
    · exact ⟨[], vis, h⟩
    · have hqnd : (nid :: rest.map Prod.fst).Nodup := by
        have := h.qIdsNodup
        rwa [List.map_cons] at this
      have hqso : (dd :: rest.map Prod.snd).Pairwise (· ≤ ·) := by
        have := h.qSorted
        rwa [List.map_cons] at this
      by_cases hge : dd ≥ maxD
      · have heq : bfsLoop s types dir minD maxD start (fuel + 1)
            ((nid, dd) :: rest) vis acc
            = bfsLoop s types dir minD maxD start fuel rest vis acc := by
          simp only [bfsLoop]
          rw [if_pos hge]
        rw [heq]
        refine ih rest vis acc ?_
        refine
          { visNodup := h.visNodup
            startVis := h.startVis
            qVis := fun p hp => h.qVis p (List.mem_cons_of_mem _ hp)
            qIdsNodup := (List.nodup_cons.mp hqnd).2
            qDist := fun p hp => h.qDist p (List.mem_cons_of_mem _ hp)
            qSorted := (List.pairwise_cons.mp hqso).2
            qSpread := fun p hp p' hp' =>
              h.qSpread p (List.mem_cons_of_mem _ hp)
                p' (List.mem_cons_of_mem _ hp')
            visClosed := ?_
            accVis := h.accVis
            accIdsNodup := h.accIdsNodup
            accSound := h.accSound }
        intro w hw
        obtain ⟨dw, hdw, alt⟩ := h.visClosed w hw
        rcases alt with hq | hge2 | hall
        · rcases List.mem_cons.mp hq with heq2 | hr
          · refine ⟨dw, hdw, .inr (.inl ?_)⟩
            have : dw = dd := by injection heq2
            omega
          · exact ⟨dw, hdw, .inl hr⟩
        · exact ⟨dw, hdw, .inr (.inl hge2)⟩
        · exact ⟨dw, hdw, .inr (.inr hall)⟩
      · have hdmax : dd < maxD := Nat.lt_of_not_le hge
        have hrest_ge : ∀ p ∈ rest, dd ≤ p.2 := by
          intro p hp
          exact (List.pairwise_cons.mp hqso).1 p.2
            (List.mem_map.mpr ⟨p, hp, rfl⟩)
        have hrest_le : ∀ p ∈ rest, p.2 ≤ dd + 1 := fun p hp =>
          h.qSpread p (List.mem_cons_of_mem _ hp) (nid, dd)
            (List.mem_cons_self _ _)
        have hdd : IsDistance s types dir start dd nid :=
          h.qDist (nid, dd) (List.mem_cons_self _ _)
        obtain ⟨dv', dq', da', heqfold, o1, o2, o3, o4, o5, o6, _, ocov⟩ :=
          bfsFold_spec s types dir minD maxD start dd nid rest vis acc
            h.startVis h.visClosed hrest_ge hdmax hdd.1
            (neighborsOf s types dir nid) (fun c hc => hc)
            [] [] [] List.nodup_nil
            (fun j hj => absurd hj (List.not_mem_nil j))
            (fun j hj => absurd hj (List.not_mem_nil j))
            (by split <;> rfl)
            (fun n hn => absurd hn (List.not_mem_nil n))
            List.nodup_nil
        rw [List.append_nil, List.append_nil, List.append_nil] at heqfold
        have heq : bfsLoop s types dir minD maxD start (fuel + 1)
            ((nid, dd) :: rest) vis acc
            = bfsLoop s types dir minD maxD start fuel
              (rest ++ dq') (vis ++ dv') (acc ++ da') := by
          simp only [bfsLoop]
          rw [if_neg hge]
          rw [heqfold]
        rw [heq]
        have hdq' : ∀ p ∈ dq', p.1 ∈ dv' ∧ p.2 = dd + 1 ∧ dd + 1 < maxD := by
          intro p hp
          by_cases hlt : dd + 1 < maxD
          · rw [if_pos hlt] at o4
            subst o4
            rcases List.mem_map.mp hp with ⟨j, hj, rfl⟩
            exact ⟨hj, rfl, hlt⟩
          · rw [if_neg hlt] at o4
            subst o4
            exact absurd hp (List.not_mem_nil p)
        have hdq'ids : dq'.map Prod.fst = dv' ∨ dq' = [] := by
          by_cases hlt : dd + 1 < maxD
          · rw [if_pos hlt] at o4
            left
            rw [o4, List.map_map]
            exact List.map_id dv'
          · rw [if_neg hlt] at o4
            exact .inr o4
        have hbd : ∀ p ∈ rest ++ dq', dd ≤ p.2 ∧ p.2 ≤ dd + 1 := by
          intro p hp
          rcases List.mem_append.mp hp with h' | h'
          · exact ⟨hrest_ge p h', hrest_le p h'⟩
          · have := (hdq' p h').2.1
            omega
        refine ih _ _ _ ?_
        refine
          { visNodup := (List.nodup_append).mpr
              ⟨h.visNodup, o1, fun a ha hb => o2 a hb ha⟩
            startVis := List.mem_append_left _ h.startVis
            qVis := ?_
            qIdsNodup := ?_
            qDist := ?_
            qSorted := ?_
            qSpread := ?_
            visClosed := ?_
            accVis := ?_
            accIdsNodup := ?_
            accSound := ?_ }
        · intro p hp
          rcases List.mem_append.mp hp with h' | h'
          · exact List.mem_append_left _
              (h.qVis p (List.mem_cons_of_mem _ h'))
          · exact List.mem_append_right _ (hdq' p h').1
        · rw [List.map_append]
          refine (List.nodup_append).mpr
            ⟨(List.nodup_cons.mp hqnd).2, ?_, ?_⟩
          · rcases hdq'ids with h' | h'
            · rw [h']; exact o1
            · rw [h']; exact List.nodup_nil
          · intro a ha hb
            rcases List.mem_map.mp ha with ⟨p, hp, rfl⟩
            rcases List.mem_map.mp hb with ⟨p', hp', hpe⟩
            have hav : p.1 ∈ vis := h.qVis p (List.mem_cons_of_mem _ hp)
            have : p'.1 ∈ dv' := (hdq' p' hp').1
            exact o2 p'.1 this (hpe ▸ hav)
        · intro p hp
          rcases List.mem_append.mp hp with h' | h'
          · exact h.qDist p (List.mem_cons_of_mem _ h')
          · obtain ⟨hp1, hp2, _⟩ := hdq' p h'
            rw [hp2]
            exact o3 p.1 hp1
        · rw [List.map_append]
          refine (List.pairwise_append).mpr
            ⟨(List.pairwise_cons.mp hqso).2, ?_, ?_⟩
          · refine pairwise_le_of_all_eq (dd + 1) _ ?_
            intro x hx
            rcases List.mem_map.mp hx with ⟨p, hp, rfl⟩
            exact (hdq' p hp).2.1
          · intro a ha b hb
            rcases List.mem_map.mp ha with ⟨p, hp, rfl⟩
            rcases List.mem_map.mp hb with ⟨p', hp', rfl⟩
            have := hrest_le p hp
            have := (hdq' p' hp').2.1
            omega
        · intro p hp p' hp'
          have h1 := hbd p hp
          have h2 := hbd p' hp'
          omega
        · intro w hw
          rcases List.mem_append.mp hw with h' | h'
          · obtain ⟨dw, hdw, alt⟩ := h.visClosed w h'
            rcases alt with hq | hge2 | hall
            · rcases List.mem_cons.mp hq with heq2 | hr
              · refine ⟨dw, hdw, .inr (.inr ?_)⟩
                have hwn : w = nid := congrArg Prod.fst heq2
                intro c hc
                rw [hwn] at hc
                exact ocov c hc
              · exact ⟨dw, hdw, .inl (List.mem_append_left _ hr)⟩
            · exact ⟨dw, hdw, .inr (.inl hge2)⟩
            · exact ⟨dw, hdw, .inr (.inr fun c hc =>
                List.mem_append_left _ (hall c hc))⟩
          · refine ⟨dd + 1, o3 w h', ?_⟩
            by_cases hlt : dd + 1 < maxD
            · rw [if_pos hlt] at o4
              refine .inl (List.mem_append_right _ ?_)
              rw [o4]
              exact List.mem_map.mpr ⟨w, h', rfl⟩
            · exact .inr (.inl (by omega))
        · intro n hn
          rcases List.mem_append.mp hn with h' | h'
          · exact List.mem_append_left _ (h.accVis n h')
          · exact List.mem_append_right _ (o5 n h').1
        · rw [List.map_append]
          refine (List.nodup_append).mpr ⟨h.accIdsNodup, o6, ?_⟩
          intro a ha hb
          rcases List.mem_map.mp ha with ⟨n, hn, rfl⟩
          rcases List.mem_map.mp hb with ⟨n', hn', hpe⟩
          have hav : n.id ∈ vis := h.accVis n hn
          have : n'.id ∈ dv' := (o5 n' hn').1
          exact o2 n'.id this (hpe ▸ hav)
        · intro n hn
          rcases List.mem_append.mp hn with h' | h'
          · exact h.accSound n h'
          · obtain ⟨ha, hb, hc, hd'⟩ := o5 n h'
            exact ⟨hb, dd + 1, o3 n.id ha, hc, hd'⟩

/-- C8: the variable-length traversal (a BFS with a visited set global to
the whole traversal) emits duplicate-free node ids, never the origin, each
at its shortest hop distance, which lies within `[min_depth, max_depth]`;
with `max_depth = 0` nothing is emitted. -/
theorem c8_varlen_traversal_confirmed (s : Store) (types : List (List Char))
    (dir : Direction) (start minD maxD : Nat) :
    ((traverseVarLength s start types dir minD maxD).map Node.id).Nodup ∧
    (∀ n ∈ traverseVarLength s start types dir minD maxD,
      n.id ≠ start ∧
      ∃ d, IsDistance s types dir start d n.id ∧ minD ≤ d ∧ d ≤ maxD) ∧
    (maxD = 0 → traverseVarLength s start types dir minD maxD = []) := by
  have hdist0 : IsDistance s types dir start 0 start :=
    ⟨ReachN.refl, fun e _ => Nat.zero_le e⟩
  have hinit : BfsInv s types dir start minD maxD [(start, 0)] [start] [] := by
    refine
      { visNodup := List.nodup_singleton _
        startVis := List.mem_singleton.mpr rfl
        qVis := ?_
        qIdsNodup := List.nodup_singleton _
        qDist := ?_
        qSorted := List.pairwise_singleton _ _
        qSpread := ?_
        visClosed := ?_
        accVis := fun n hn => absurd hn (List.not_mem_nil n)
        accIdsNodup := List.nodup_nil
        accSound := fun n hn => absurd hn (List.not_mem_nil n) }
    · intro p hp
      rcases List.mem_singleton.mp hp with rfl
      exact List.mem_singleton.mpr rfl
    · intro p hp
      rcases List.mem_singleton.mp hp with rfl
      exact hdist0
    · intro p hp p' hp'
      rcases List.mem_singleton.mp hp with rfl
      rcases List.mem_singleton.mp hp' with rfl
      omega
    · intro w hw
      rcases List.mem_singleton.mp hw with rfl
      exact ⟨0, hdist0, .inl (List.mem_singleton.mpr rfl)⟩
  obtain ⟨q', vis', hfin⟩ := bfsLoop_inv s types dir minD maxD start
    (s.nodes.length + 2) [(start, 0)] [start] [] hinit
  refine ⟨hfin.accIdsNodup, ?_, ?_⟩
  · intro n hn
    exact hfin.accSound n hn
  · intro h0
    refine List.eq_nil_iff_forall_not_mem.mpr ?_
    intro n hn
    obtain ⟨hne, dn, hdn, _, hmax⟩ := hfin.accSound n hn
    have hdn0 : dn = 0 := by omega
    rw [hdn0] at hdn
    exact hne (reachN_zero s types dir start n.id hdn.1)

/-- The chain graph 1 → 2 → 3 → 4 used to witness the C8 theorem. -/
def c8Store : Store :=
  { nodes := [{ id := 1, labels := [], properties := [] },
              { id := 2, labels := [], properties := [] },
              { id := 3, labels := [], properties := [] },
              { id := 4, labels := [], properties := [] }],
    edges := [{ id := 1, fromNode := 1, toNode := 2, edgeType := "R",
                properties := [] },
              { id := 2, fromNode := 2, toNode := 3, edgeType := "R",
                properties := [] },
              { id := 3, fromNode := 3, toNode := 4, edgeType := "R",
                properties := [] }],
    labelIndex := fun _ => [],
    adjacencyOut := fun k =>
      if k = 1 then [1] else if k = 2 then [2] else if k = 3 then [3] else [],
    adjacencyIn := fun k =>
      if k = 2 then [1] else if k = 3 then [2] else if k = 4 then [3] else [],
    nextNodeId := 5, nextEdgeId := 4 }

/-- C8 (witness): on the chain 1 → 2 → 3 → 4 with bounds `[2, 3]`, the
traversal emits exactly nodes 3 and 4, and node 3 is at a shortest
distance within the bounds. -/
theorem c8_varlen_traversal_confirmed_witness :
    (traverseVarLength c8Store 1 [] .right 2 3).map Node.id = [3, 4] ∧
    ∃ d, IsDistance c8Store [] .right 1 d 3 ∧ 2 ≤ d ∧ d ≤ 3 := by
  refine ⟨rfl, ?_⟩
  have h := (c8_varlen_traversal_confirmed c8Store [] .right 1 2 3).2.1
  have hm : ({ id := 3, labels := [], properties := [] } : Node)
      ∈ traverseVarLength c8Store 1 [] .right 2 3 := by
    rw [show traverseVarLength c8Store 1 [] .right 2 3
      = [{ id := 3, labels := [], properties := [] },
         { id := 4, labels := [], properties := [] }] from rfl]
    exact List.mem_cons_self _ _
  exact (h _ hm).2

/-- `ast.rs` `Literal` (f64 literals modelled as `ℚ`, i64 as `Int`). -/
inductive Lit
  | string (s : String)
  | int (i : Int)
  | float (f : ℚ)
  | bool (b : Bool)
  | null

/-- `ast.rs` `BinOp`. -/
inductive BinOp
  | eq | ne | lt | le | gt | ge | and | or | add | sub | mul | div

/-- `ast.rs` `UnOp`. -/
inductive UnOp
  | not

/-- `ast.rs` `AggFunc`. -/
inductive AggFunc
  | count | sum | avg | min | max

/-- `ast.rs` `Expr`.  The `Exists` constructor is omitted: evaluating it
runs a whole subquery plan, and its result is a boolean in every path, so
it never contributes a numeric value to an aggregate. -/
inductive Expr
  | literal (l : Lit)
  | ident (name : String)
  | property (var prop : String)
  | parameter (name : String)
  | binaryOp (l : Expr) (op : BinOp) (r : Expr)
  | unaryOp (op : UnOp) (e : Expr)
  | aggregate (f : AggFunc) (arg : Expr)
  | functionCall (name : String) (args : List Expr)
  | isNull (e : Expr)
  | isNotNull (e : Expr)

/-- `Executor::eval_binary_op` (executor.rs:795-915).  Rust `i64 /`
truncates toward zero, hence `Int.tdiv`; f64 arithmetic is modelled
exactly over `ℚ`. -/
def evalBinaryOp (l : Value) (op : BinOp) (r : Value) :
    Except EngineError Value :=
  match l, r with
  | .int li, .int ri =>
    match op with
    | .add => .ok (.int (li + ri))
    | .sub => .ok (.int (li - ri))
    | .mul => .ok (.int (li * ri))
    | .div => if ri = 0 then .error (.invalidArgument "division by zero")
        else .ok (.int (li.tdiv ri))
    | .eq => .ok (.bool (decide (li = ri)))
    | .ne => .ok (.bool (decide (li ≠ ri)))
    | .lt => .ok (.bool (decide (li < ri)))
    | .le => .ok (.bool (decide (li ≤ ri)))
    | .gt => .ok (.bool (decide (ri < li)))
    | .ge => .ok (.bool (decide (ri ≤ li)))
    | _ => .error (.invalidArgument "invalid int op")
  | .float lf, .float rf =>
    match op with
    | .add => .ok (.float (lf + rf))
    | .sub => .ok (.float (lf - rf))
    | .mul => .ok (.float (lf * rf))
    | .div => if rf = 0 then .error (.invalidArgument "division by zero")
        else .ok (.float (lf / rf))
    | .eq => .ok (.bool (decide (lf = rf)))
    | .ne => .ok (.bool (decide (lf ≠ rf)))
    | .lt => .ok (.bool (decide (lf < rf)))
    | .le => .ok (.bool (decide (lf ≤ rf)))
    | .gt => .ok (.bool (decide (rf < lf)))
    | .ge => .ok (.bool (decide (rf ≤ lf)))
    | _ => .error (.invalidArgument "invalid float op")
  | .int li, .float rf =>
    match op with
    | .add => .ok (.float ((li : ℚ) + rf))
    | .sub => .ok (.float ((li : ℚ) - rf))
    | .mul => .ok (.float ((li : ℚ) * rf))
    | .div => if rf = 0 then .error (.invalidArgument "division by zero")
        else .ok (.float ((li : ℚ) / rf))
    | .eq => .ok (.bool (decide ((li : ℚ) = rf)))
    | .ne => .ok (.bool (decide ((li : ℚ) ≠ rf)))
    | .lt => .ok (.bool (decide ((li : ℚ) < rf)))
    | .le => .ok (.bool (decide ((li : ℚ) ≤ rf)))
    | .gt => .ok (.bool (decide (rf < (li : ℚ))))
    | .ge => .ok (.bool (decide (rf ≤ (li : ℚ))))
    | _ => .error (.invalidArgument "invalid numeric op")
  | .float lf, .int ri =>
    match op with
    | .add => .ok (.float (lf + (ri : ℚ)))
    | .sub => .ok (.float (lf - (ri : ℚ)))
    | .mul => .ok (.float (lf * (ri : ℚ)))
    | .div => if ri = 0 then .error (.invalidArgument "division by zero")
        else .ok (.float (lf / (ri : ℚ)))
    | .eq => .ok (.bool (decide (lf = (ri : ℚ))))
    | .ne => .ok (.bool (decide (lf ≠ (ri : ℚ))))
    | .lt => .ok (.bool (decide (lf < (ri : ℚ))))
    | .le => .ok (.bool (decide (lf ≤ (ri : ℚ))))
    | .gt => .ok (.bool (decide ((ri : ℚ) < lf)))
    | .ge => .ok (.bool (decide ((ri : ℚ) ≤ lf)))
    | _ => .error (.invalidArgument "invalid numeric op")
  | .bool lb, .bool rb =>
    match op with
    | .and => .ok (.bool (lb && rb))
    | .or => .ok (.bool (lb || rb))
    | .eq => .ok (.bool (decide (lb = rb)))
    | .ne => .ok (.bool (decide (lb ≠ rb)))
    | _ => .error (.invalidArgument "invalid bool op")
  | .string ls, .string rs =>
    match op with
    | .eq => .ok (.bool (decide (ls = rs)))
    | .ne => .ok (.bool (decide (ls ≠ rs)))
    | _ => .error (.invalidArgument "invalid string op")
  | _, _ => .error (.invalidArgument "type mismatch in binary op")

/-- `Executor::eval_expr` (executor.rs:668-795) on the embedded fragment;
`params` is the executor's parameter map.  Node ids surface as `Int` via
`ID(...)` exactly as `id as i64` does. -/
def evalExpr (params : String → Option Value) : Expr → Tuple →
    Except EngineError Value
  | .literal l, _ => .ok (match l with
    | .string s => .string s
    | .int i => .int i
    | .float f => .float f
    | .bool b => .bool b
    | .null => .null)
  | .ident name, t =>
    match t name with
    | some v => .ok v
    | none => .error (.invalidArgument ("variable not found: " ++ name))
  | .property var prop, t =>
    match t (var ++ "." ++ prop) with
    | some v => .ok v
    | none => .error (.invalidArgument ("property not found: " ++ var ++ "."
        ++ prop))
  | .parameter name, _ =>
    match params name with
    | some v => .ok v
    | none => .error (.invalidArgument ("parameter not bound: " ++ name))
  | .binaryOp l op r, t =>
    match evalExpr params l t with
    | .error e => .error e
    | .ok lv =>
      match evalExpr params r t with
      | .error e => .error e
      | .ok rv => evalBinaryOp lv op rv
  | .unaryOp .not e, t =>
    match evalExpr params e t with
    | .error er => .error er
    | .ok (.bool b) => .ok (.bool (!b))
    | .ok _ => .error (.invalidArgument "NOT requires boolean")
  | .aggregate _ _, _ =>
    .error (.invalidArgument "aggregate must be evaluated at Project")
  | .functionCall name args, t =>
    if name.toUpper = "ID" then
      match args with
      | [a] =>
        match evalExpr params a t with
        | .error er => .error er
        | .ok (.nodeId id) => .ok (.int (Int.ofNat id))
        | .ok _ => .error (.invalidArgument "ID() requires a node argument")
      | _ => .error (.invalidArgument "ID() requires exactly 1 argument")
    else .error (.invalidArgument ("unknown function: " ++ name))
  | .isNull e, t =>
    match evalExpr params e t with
    | .error er => .error er
    | .ok v => .ok (.bool (match v with | .null => true | _ => false))
  | .isNotNull e, t =>
    match evalExpr params e t with
    | .error er => .error er
    | .ok v => .ok (.bool (match v with | .null => false | _ => true))

/-- Whether an evaluation outcome contributes to a numeric aggregate: the
`if let Ok(v)` + `Int`/`Float` arms of the `eval_aggregate` loops. -/
def isNumericResult : Except EngineError Value → Bool
  | .ok (.int _) => true
  | .ok (.float _) => true
  | _ => false

/-- The SUM loop of `eval_aggregate` (errors and non-numeric values are
silently skipped). -/
def sumNumeric (params : String → Option Value) (arg : Expr)
    (tuples : List Tuple) : ℚ :=
  tuples.foldl (fun acc t =>
    match evalExpr params arg t with
    | .ok (.int i) => acc + (i : ℚ)
    | .ok (.float f) => acc + f
    | _ => acc) 0

/-- The AVG loop of `eval_aggregate`: running sum and count of numeric
contributions. -/
def avgState (params : String → Option Value) (arg : Expr)
    (tuples : List Tuple) : ℚ × Nat :=
  tuples.foldl (fun st t =>
    match evalExpr params arg t with
    | .ok (.int i) => (st.1 + (i : ℚ), st.2 + 1)
    | .ok (.float f) => (st.1 + f, st.2 + 1)
    | _ => st) (0, 0)

/-- The MIN loop of `eval_aggregate`. -/
def minNumeric (params : String → Option Value) (arg : Expr)
    (tuples : List Tuple) : Option ℚ :=
  tuples.foldl (fun best t =>
    match evalExpr params arg t with
    | .ok (.int i) => some (match best with
      | some b => min b (i : ℚ)
      | none => (i : ℚ))
    | .ok (.float f) => some (match best with
      | some b => min b f
      | none => f)
    | _ => best) none

/-- The MAX loop of `eval_aggregate`. -/
def maxNumeric (params : String → Option Value) (arg : Expr)
    (tuples : List Tuple) : Option ℚ :=
  tuples.foldl (fun best t =>
    match evalExpr params arg t with
    | .ok (.int i) => some (match best with
      | some b => max b (i : ℚ)
      | none => (i : ℚ))
    | .ok (.float f) => some (match best with
      | some b => max b f
      | none => f)
    | _ => best) none

/-- `Executor::eval_aggregate` (executor.rs:917-971). -/
def evalAggregate (params : String → Option Value) (e : Expr)
    (tuples : List Tuple) : Except EngineError Value :=
  match e with
  | .aggregate f arg =>
    match f with
    | .count => .ok (.int (Int.ofNat tuples.length))
    | .sum => .ok (.float (sumNumeric params arg tuples))
    | .avg =>
      let st := avgState params arg tuples
      if st.2 = 0 then .ok .null else .ok (.float (st.1 / (st.2 : ℚ)))
    | .min =>
      match minNumeric params arg tuples with
      | some b => .ok (.float b)
      | none => .ok .null
    | .max =>
      match maxNumeric params arg tuples with
      | some b => .ok (.float b)
      | none => .ok .null
  | _ => .error (.invalidArgument "expected aggregate expression")

lemma sumNumeric_of_no_numeric (params : String → Option Value) (arg : Expr) :
    ∀ (tuples : List Tuple) (acc : ℚ),
    (∀ t ∈ tuples, isNumericResult (evalExpr params arg t) = false) →
    tuples.foldl (fun acc t =>
      match evalExpr params arg t with
      | .ok (.int i) => acc + (i : ℚ)
      | .ok (.float f) => acc + f
      | _ => acc) acc = acc := by
  intro tuples
  induction tuples with
  | nil => intro acc _; rfl
  | cons t ts ih =>
    intro acc h
    rw [List.foldl_cons]
    have ht := h t (List.mem_cons_self _ _)
    rcases hev : evalExpr params arg t with er | v
    · exact ih acc (fun t' ht' => h t' (List.mem_cons_of_mem _ ht'))
    · rw [hev] at ht
      cases v <;> first
        | exact ih acc (fun t' ht' => h t' (List.mem_cons_of_mem _ ht'))
        | simp [isNumericResult] at ht

lemma avgState_of_no_numeric (params : String → Option Value) (arg : Expr) :
    ∀ (tuples : List Tuple) (st : ℚ × Nat),
    (∀ t ∈ tuples, isNumericResult (evalExpr params arg t) = false) →
    tuples.foldl (fun st t =>
      match evalExpr params arg t with
      | .ok (.int i) => (st.1 + (i : ℚ), st.2 + 1)
      | .ok (.float f) => (st.1 + f, st.2 + 1)
      | _ => st) st = st := by
  intro tuples
  induction tuples with
  | nil => intro st _; rfl
  | cons t ts ih =>
    intro st h
    rw [List.foldl_cons]
    have ht := h t (List.mem_cons_self _ _)
    rcases hev : evalExpr params arg t with er | v
    · exact ih st (fun t' ht' => h t' (List.mem_cons_of_mem _ ht'))
    · rw [hev] at ht
      cases v <;> first
        | exact ih st (fun t' ht' => h t' (List.mem_cons_of_mem _ ht'))
        | simp [isNumericResult] at ht

lemma minNumeric_of_no_numeric (params : String → Option Value) (arg : Expr) :
    ∀ (tuples : List Tuple) (best : Option ℚ),
    (∀ t ∈ tuples, isNumericResult (evalExpr params arg t) = false) →
    tuples.foldl (fun best t =>
      match evalExpr params arg t with
      | .ok (.int i) => some (match best with
        | some b => min b (i : ℚ)
        | none => (i : ℚ))
      | .ok (.float f) => some (match best with
        | some b => min b f
        | none => f)
      | _ => best) best = best := by
  intro tuples
  induction tuples with
  | nil => intro best _; rfl
  | cons t ts ih =>
    intro best h
    rw [List.foldl_cons]
    have ht := h t (List.mem_cons_self _ _)
    rcases hev : evalExpr params arg t with er | v
    · exact ih best (fun t' ht' => h t' (List.mem_cons_of_mem _ ht'))
    · rw [hev] at ht
      cases v <;> first
        | exact ih best (fun t' ht' => h t' (List.mem_cons_of_mem _ ht'))
        | simp [isNumericResult] at ht

lemma maxNumeric_of_no_numeric (params : String → Option Value) (arg : Expr) :
    ∀ (tuples : List Tuple) (best : Option ℚ),
    (∀ t ∈ tuples, isNumericResult (evalExpr params arg t) = false) →
    tuples.foldl (fun best t =>
      match evalExpr params arg t with
      | .ok (.int i) => some (match best with
        | some b => max b (i : ℚ)
        | none => (i : ℚ))
      | .ok (.float f) => some (match best with
        | some b => max b f
        | none => f)
      | _ => best) best = best := by
  intro tuples
  induction tuples with
  | nil => intro best _; rfl
  | cons t ts ih =>
    intro best h
    rw [List.foldl_cons]
    have ht := h t (List.mem_cons_self _ _)
    rcases hev : evalExpr params arg t with er | v
    · exact ih best (fun t' ht' => h t' (List.mem_cons_of_mem _ ht'))
    · rw [hev] at ht
      cases v <;> first
        | exact ih best (fun t' ht' => h t' (List.mem_cons_of_mem _ ht'))
        | simp [isNumericResult] at ht

/-- C10: on an input tuple list where the aggregate argument never
evaluates to a numeric value (the empty input included), SUM returns
`Float(0.0)` while AVG, MIN and MAX return `Null`. -/
theorem c10_sum_zero_on_no_numeric (params : String → Option Value)
    (arg : Expr) (tuples : List Tuple)
    (h : ∀ t ∈ tuples, isNumericResult (evalExpr params arg t) = false) :
    evalAggregate params (.aggregate .sum arg) tuples = .ok (.float 0) ∧
    evalAggregate params (.aggregate .avg arg) tuples = .ok .null ∧
    evalAggregate params (.aggregate .min arg) tuples = .ok .null ∧
    evalAggregate params (.aggregate .max arg) tuples = .ok .null := by
  refine ⟨?_, ?_, ?_, ?_⟩
  · show Except.ok (Value.float (sumNumeric params arg tuples))
      = Except.ok (Value.float 0)
    rw [show sumNumeric params arg tuples = 0 from
      sumNumeric_of_no_numeric params arg tuples 0 h]
  · show (let st := avgState params arg tuples
      if st.2 = 0 then Except.ok Value.null
      else .ok (.float (st.1 / (st.2 : ℚ)))) = _
    rw [show avgState params arg tuples = (0, 0) from
      avgState_of_no_numeric params arg tuples (0, 0) h]
    rfl
  · show (match minNumeric params arg tuples with
      | some b => Except.ok (Value.float b)
      | none => Except.ok Value.null) = _
    rw [show minNumeric params arg tuples = none from
      minNumeric_of_no_numeric params arg tuples none h]
  · show (match maxNumeric params arg tuples with
      | some b => Except.ok (Value.float b)
      | none => Except.ok Value.null) = _
    rw [show maxNumeric params arg tuples = none from
      maxNumeric_of_no_numeric params arg tuples none h]

/-- C10 (witness): `NULL` literal argument over a one-tuple input. -/
theorem c10_sum_zero_on_no_numeric_witness :
    evalAggregate (fun _ => none) (.aggregate .sum (.literal .null))
      [emptyTuple] = .ok (.float 0) ∧
    evalAggregate (fun _ => none) (.aggregate .avg (.literal .null))
      [emptyTuple] = .ok .null ∧
    evalAggregate (fun _ => none) (.aggregate .min (.literal .null))
      [emptyTuple] = .ok .null ∧
    evalAggregate (fun _ => none) (.aggregate .max (.literal .null))
      [emptyTuple] = .ok .null :=
  c10_sum_zero_on_no_numeric (fun _ => none) (.literal .null) [emptyTuple]
    (fun t ht => by
      rcases List.mem_singleton.mp ht with rfl
      rfl)

/-- C2 (witness for the amended theorem): a concrete `add_edge 1 2` call. -/
theorem c2_add_edge_amended_witness :
    (addEdge emptyStore 1 2 "T" [] 0).isOk = true ∧
    ((match addEdge emptyStore 1 2 "T" [] 0 with
      | .ok (_, s') => s'.adjacencyOut 1
      | .error _ => []) = emptyStore.adjacencyOut 1 ++ [1]) := by
  refine ⟨c2_add_edge_amended.1 emptyStore 1 2 "T" [] 0, ?_⟩
  have h := c2_add_edge_amended.2 emptyStore 1 2 "T" [] 0 1 _ rfl
  exact h.2.1

end Casys
